import Mathlib

/-!
Verification development for the content-addressed Pareto store
(`src/pareto_store.py`): entry hashing and dedup, index/file consistency,
distance ranking, and the multi-mode ideal-point computation.

Numeric values are embedded as rationals (`ℚ`), with an adjoined `+inf`
(`PVal`) where the store's ranking code manufactures `float("inf")` for
missing objective values.  The geometric-median mode, which needs square
roots, is embedded over `ℝ`.
-/

namespace Pareto

/-- JSON values, as produced by `json.load` / consumed by `json.dumps`. -/
inductive Json where
  | null : Json
  | bool (b : Bool) : Json
  | num (q : ℚ) : Json
  | str (s : String) : Json
  | arr (xs : List Json) : Json
  | obj (kvs : List (String × Json)) : Json

/-- UTF-8 encoding of a single character, as in `str.encode("utf-8")`. -/
def utf8Char (c : Char) : List ℕ :=
  let n := c.toNat
  if n < 128 then [n]
  else if n < 2048 then [192 + n / 64, 128 + n % 64]
  else if n < 65536 then [224 + n / 4096, 128 + n / 64 % 64, 128 + n % 64]
  else [240 + n / 262144, 128 + n / 4096 % 64, 128 + n / 64 % 64, 128 + n % 64]

def utf8 (s : String) : List ℕ := s.data.flatMap utf8Char

/-- Strict lexicographic order on character lists (Python string `<`,
comparing code points). -/
def lexLt : List Char → List Char → Prop
  | [], [] => False
  | [], _ :: _ => True
  | _ :: _, [] => False
  | a :: as, b :: bs => a < b ∨ (a = b ∧ lexLt as bs)

instance : DecidableRel lexLt := fun a b => by
  induction a generalizing b with
  | nil => cases b <;> simp [lexLt] <;> infer_instance
  | cons x xs ih =>
      cases b with
      | nil => simp [lexLt]; infer_instance
      | cons y ys => simp only [lexLt]; exact @instDecidableOr _ _ _ (@instDecidableAnd _ _ _ (ih ys))

def strLt (a b : String) : Prop := lexLt a.data b.data

instance : DecidableRel strLt := fun a b => inferInstanceAs (Decidable (lexLt a.data b.data))

/-- Non-strict string order used by `sorted(...)`. -/
def strLE (a b : String) : Prop := strLt a b ∨ a = b

instance : DecidableRel strLE := fun _ _ => inferInstanceAs (Decidable (_ ∨ _))

/-- `sorted(...)` on a list of strings. -/
def sortStr (l : List String) : List String := l.insertionSort strLE

/-- Order on serialized key/value pairs used by `json.dumps(..., sort_keys=True)`. -/
def keyLE (a b : String × String) : Prop := strLE a.1 b.1

instance : DecidableRel keyLE := fun a b => inferInstanceAs (Decidable (strLE a.1 b.1))

def sortPairs (l : List (String × String)) : List (String × String) :=
  l.insertionSort keyLE

def joinComma : List String → String
  | [] => ""
  | [x] => x
  | x :: xs => x ++ "," ++ joinComma xs

def quoteStr (s : String) : String := "\"" ++ s ++ "\""

def numRepr (q : ℚ) : String :=
  if q.den = 1 then toString q.num else toString q.num ++ "/" ++ toString q.den

mutual

/-- `json.dumps(entry, sort_keys=True, separators=(",", ":"))`: canonical
compact serialization, object keys emitted in sorted order at every level. -/
def dumps : Json → String
  | .null => "null"
  | .bool b => if b then "true" else "false"
  | .num q => numRepr q
  | .str s => quoteStr s
  | .arr xs => "[" ++ joinComma (dumpsElems xs) ++ "]"
  | .obj kvs =>
      "\x7b" ++
        joinComma ((sortPairs (dumpsPairs kvs)).map
          (fun kv => quoteStr kv.1 ++ ":" ++ kv.2)) ++ "\x7d"

def dumpsElems : List Json → List String
  | [] => []
  | x :: xs => dumps x :: dumpsElems xs

def dumpsPairs : List (String × Json) → List (String × String)
  | [] => []
  | (k, v) :: rest => (k, dumps v) :: dumpsPairs rest

end

/-! ## SHA-256, over byte lists with 32-bit words as `Nat` mod `2^32` -/

def w32 (n : ℕ) : ℕ := n % 4294967296

def rotr (x n : ℕ) : ℕ := w32 (x / 2 ^ n + x % 2 ^ n * 2 ^ (32 - n))

def shr (x n : ℕ) : ℕ := x / 2 ^ n

def bnot32 (x : ℕ) : ℕ := Nat.xor x 4294967295

def chF (e f g : ℕ) : ℕ := Nat.xor (Nat.land e f) (Nat.land (bnot32 e) g)

def majF (a b c : ℕ) : ℕ :=
  Nat.xor (Nat.xor (Nat.land a b) (Nat.land a c)) (Nat.land b c)

def bigSig0 (x : ℕ) : ℕ := Nat.xor (Nat.xor (rotr x 2) (rotr x 13)) (rotr x 22)

def bigSig1 (x : ℕ) : ℕ := Nat.xor (Nat.xor (rotr x 6) (rotr x 11)) (rotr x 25)

def smallSig0 (x : ℕ) : ℕ := Nat.xor (Nat.xor (rotr x 7) (rotr x 18)) (shr x 3)

def smallSig1 (x : ℕ) : ℕ := Nat.xor (Nat.xor (rotr x 17) (rotr x 19)) (shr x 10)

def shaK : List ℕ :=
  [1116352408, 1899447441, 3049323471, 3921009573,
   961987163, 1508970993, 2453635748, 2870763221,
   3624381080, 310598401, 607225278, 1426881987,
   1925078388, 2162078206, 2614888103, 3248222580,
   3835390401, 4022224774, 264347078, 604807628,
   770255983, 1249150122, 1555081692, 1996064986,
   2554220882, 2821834349, 2952996808, 3210313671,
   3336571891, 3584528711, 113926993, 338241895,
   666307205, 773529912, 1294757372, 1396182291,
   1695183700, 1986661051, 2177026350, 2456956037,
   2730485921, 2820302411, 3259730800, 3345764771,
   3516065817, 3600352804, 4094571909, 275423344,
   430227734, 506948616, 659060556, 883997877,
   958139571, 1322822218, 1537002063, 1747873779,
   1955562222, 2024104815, 2227730452, 2361852424,
   2428436474, 2756734187, 3204031479, 3329325298]

def be64 (n : ℕ) : List ℕ :=
  [n / 2 ^ 56 % 256, n / 2 ^ 48 % 256, n / 2 ^ 40 % 256, n / 2 ^ 32 % 256,
   n / 2 ^ 24 % 256, n / 2 ^ 16 % 256, n / 2 ^ 8 % 256, n % 256]

def padMsg (m : List ℕ) : List ℕ :=
  let L := m.length
  m ++ [128] ++ List.replicate ((120 - (L + 1) % 64) % 64) 0 ++ be64 (8 * L)

def chunk64F : ℕ → List ℕ → List (List ℕ)
  | 0, _ => []
  | _, [] => []
  | fuel + 1, a :: l => (a :: l).take 64 :: chunk64F fuel ((a :: l).drop 64)

def chunk64 (l : List ℕ) : List (List ℕ) := chunk64F l.length l

def words16 : List ℕ → List ℕ
  | b0 :: b1 :: b2 :: b3 :: rest =>
      (b0 * 2 ^ 24 + b1 * 2 ^ 16 + b2 * 2 ^ 8 + b3) :: words16 rest
  | _ => []

def schedStep (w : List ℕ) : List ℕ :=
  w ++ [w32 (smallSig1 (w.getD (w.length - 2) 0) + w.getD (w.length - 7) 0 +
             smallSig0 (w.getD (w.length - 15) 0) + w.getD (w.length - 16) 0)]

def schedule (w : List ℕ) : List ℕ :=
  (List.range 48).foldl (fun acc _ => schedStep acc) w

abbrev Sha8 := ℕ × ℕ × ℕ × ℕ × ℕ × ℕ × ℕ × ℕ

def shaH0 : Sha8 :=
  (0x6a09e667, 0xbb67ae85, 0x3c6ef372, 0xa54ff53a, 0x510e527f, 0x9b05688c, 0x1f83d9ab, 0x5be0cd19)

def shaRound (st : Sha8) (wk : ℕ × ℕ) : Sha8 :=
  let (a, b, c, d, e, f, g, h) := st
  let t1 := w32 (h + bigSig1 e + chF e f g + wk.2 + wk.1)
  let t2 := w32 (bigSig0 a + majF a b c)
  (w32 (t1 + t2), a, b, c, w32 (d + t1), e, f, g)

def shaBlock (st : Sha8) (block : List ℕ) : Sha8 :=
  let ws := schedule (words16 block)
  let r := (ws.zip shaK).foldl shaRound st
  let (a, b, c, d, e, f, g, h) := st
  let (a', b', c', d', e', f', g', h') := r
  (w32 (a + a'), w32 (b + b'), w32 (c + c'), w32 (d + d'),
   w32 (e + e'), w32 (f + f'), w32 (g + g'), w32 (h + h'))

def sha256Words (msg : List ℕ) : Sha8 :=
  (chunk64 (padMsg msg)).foldl shaBlock shaH0

def hexDigit (n : ℕ) : Char :=
  if n < 10 then Char.ofNat (48 + n) else Char.ofNat (87 + n)

def hexWord (w : ℕ) : List Char :=
  [hexDigit (w / 16 ^ 7 % 16), hexDigit (w / 16 ^ 6 % 16), hexDigit (w / 16 ^ 5 % 16),
   hexDigit (w / 16 ^ 4 % 16), hexDigit (w / 16 ^ 3 % 16), hexDigit (w / 16 ^ 2 % 16),
   hexDigit (w / 16 % 16), hexDigit (w % 16)]

def hexDigest (st : Sha8) : List Char :=
  hexWord st.1 ++ hexWord st.2.1 ++ hexWord st.2.2.1 ++ hexWord st.2.2.2.1 ++
  hexWord st.2.2.2.2.1 ++ hexWord st.2.2.2.2.2.1 ++
  hexWord st.2.2.2.2.2.2.1 ++ hexWord st.2.2.2.2.2.2.2

/-- `hash_entry`: the first 16 characters of
`hashlib.sha256(json.dumps(entry, sort_keys=True, separators=(",", ":")).encode("utf-8")).hexdigest()`. -/
def hash_entry (e : Json) : String :=
  String.mk ((hexDigest (sha256Words (utf8 (dumps e)))).take 16)

/-! ## Significant-digit rounding (`round_floats`, imported from `opt_utils`) -/

/-- Fuel-based decimal logarithm: for `1 ≤ n`, the number of decimal digits
of `n` minus one. -/
def log10F : ℕ → ℕ → ℕ
  | 0, _ => 0
  | f + 1, n => if n < 10 then 0 else 1 + log10F f (n / 10)

def pow10 (n : ℕ) : ℚ := ((10 ^ n : ℕ) : ℚ)

/-- The exponent `e` with `10^e ≤ q < 10^(e+1)`, for `q > 0`. -/
def qExp (q : ℚ) : ℤ :=
  let c : ℤ := (log10F q.num.toNat q.num.toNat : ℤ) - (log10F q.den q.den : ℤ)
  if q * pow10 (-c).toNat < pow10 c.toNat then c - 1 else c

/-- Modelled from the spec: `round_floats` (imported from `opt_utils`, which is
not part of the source tree) rounds a floating-point value to `sig`
significant digits.  `roundSig` rounds one rational to `sig` significant
digits: scale so that the leading digit lands in the units-to-`10^(sig-1)`
range, round to an integer, and scale back. -/
def roundSig (sig : ℕ) (q : ℚ) : ℚ :=
  if q = 0 then 0
  else
    let k : ℤ := (sig : ℤ) - 1 - qExp |q|
    if 0 ≤ k then (round (q * pow10 k.toNat) : ℚ) / pow10 k.toNat
    else (round (q / pow10 (-k).toNat) : ℚ) * pow10 (-k).toNat

mutual

/-- Modelled from the spec: `round_floats(entry, sig)` (from the missing
`opt_utils` module) returns the entry with every floating-point leaf rounded
to `sig` significant digits. -/
def round_floats (e : Json) (sig : ℕ) : Json :=
  match e with
  | .num q => .num (roundSig sig q)
  | .arr xs => .arr (roundFloatsElems xs sig)
  | .obj kvs => .obj (roundFloatsPairs kvs sig)
  | .null => .null
  | .bool b => .bool b
  | .str s => .str s

def roundFloatsElems (xs : List Json) (sig : ℕ) : List Json :=
  match xs with
  | [] => []
  | x :: rest => round_floats x sig :: roundFloatsElems rest sig

def roundFloatsPairs (kvs : List (String × Json)) (sig : ℕ) : List (String × Json) :=
  match kvs with
  | [] => []
  | (k, v) :: rest => (k, round_floats v sig) :: roundFloatsPairs rest sig

end

/-! ## Rationals extended with `+inf`

The ranking code substitutes `float("inf")` for missing objective values;
every other float it manipulates is an ordinary number, embedded as `ℚ`. -/

inductive PVal where
  | fin (q : ℚ) : PVal
  | inf : PVal
deriving DecidableEq

/-- `x - c` for `x` possibly infinite, `c` finite (`inf - c = inf`). -/
def PVal.subQ : PVal → ℚ → PVal
  | .fin a, b => .fin (a - b)
  | .inf, _ => .inf

/-- `x / c`; only ever applied with `c > 0`, where `inf / c = inf`. -/
def PVal.divQ : PVal → ℚ → PVal
  | .fin a, b => .fin (a / b)
  | .inf, _ => .inf

/-- `x ** 2`; the squared value is `inf` when `x` is (`x` is never `-inf` here). -/
def PVal.sq : PVal → PVal
  | .fin a => .fin (a ^ 2)
  | .inf => .inf

def PVal.add : PVal → PVal → PVal
  | .fin a, .fin b => .fin (a + b)
  | _, _ => .inf

/-- `sum(...)` starting from `0`. -/
def sumP (l : List PVal) : PVal := l.foldl PVal.add (.fin 0)

/-! ## The zero-padded distance prefix `f"{dist:08.4f}"`

The distance is `sqrt` of a rational sum of squares `s`; the formatted
value is `round(10^4 * sqrt(s))` in fixed-point.  `natSqrt` is a
fuel-structured integer square root (kernel-reducible), and
`roundSqrtE4 s = floor(sqrt(s * 10^8) + 1/2)`. -/

def sqrtF : ℕ → ℕ → ℕ
  | 0, _ => 0
  | fuel + 1, n =>
      if n < 2 then n
      else
        let r := 2 * sqrtF fuel (n / 4)
        if (r + 1) * (r + 1) ≤ n then r + 1 else r

def natSqrt (n : ℕ) : ℕ := sqrtF n n

/-- `round(10^4 * sqrt s)` for a rational `s ≥ 0`, as a natural number. -/
def roundSqrtE4 (s : ℚ) : ℕ :=
  (natSqrt (4 * (s.num.toNat * 100000000) * s.den) + s.den) / (2 * s.den)

def digitChar (d : ℕ) : Char := Char.ofNat (48 + d)

/-- Exactly `w` decimal digits of `n` (for `n < 10^w`), most significant first. -/
def padDigits : ℕ → ℕ → List Char
  | 0, _ => []
  | w + 1, n => digitChar (n / 10 ^ w) :: padDigits w (n % 10 ^ w)

def natCharsF : ℕ → ℕ → List Char
  | 0, n => [digitChar n]
  | f + 1, n => if n < 10 then [digitChar n] else natCharsF f (n / 10) ++ [digitChar (n % 10)]

/-- All decimal digits of `n`, no leading zeros. -/
def natChars (n : ℕ) : List Char := natCharsF n n

/-- `f"{v:08.4f}"` for the fixed-point value `n = round(v * 10^4)`: three
(zero-padded) integer digits — more if the value reaches 1000 — a dot, and
four fractional digits. -/
def fmtFixed (n : ℕ) : String :=
  String.mk ((if n < 10 ^ 7 then padDigits 3 (n / 10 ^ 4) else natChars (n / 10 ^ 4)) ++
    ['.'] ++ padDigits 4 (n % 10 ^ 4))

/-- The distance prefix written into storage names.  A distance of `inf`
(missing objective value) formats as the 8-character `"     inf"`
(`format` does not zero-pad infinities). -/
def distPrefP : PVal → String
  | .fin s => fmtFixed (roundSqrtE4 s)
  | .inf => "     inf"

/-! ## Filesystem and store state -/

/-- The slice of the filesystem the store touches: the `pareto/` directory
(file name ↦ parsed JSON content) and the `index.json` file (parsed list,
`none` when absent). -/
structure FS where
  pareto : List (String × Json)
  indexFile : Option (List String)

structure Store where
  fs : FS
  hashes : List String
  sig_digits : ℕ

inductive PyErr where
  | fileNotFound
  | indexError
  | keyError
  | typeError
  | valueError
  | stopIteration
deriving DecidableEq

/-- `name.endswith(suf)`, the semantics of the glob patterns
`*<suf>` used by the store (all its patterns are `*` followed by a literal). -/
def strEnds (name suf : String) : Bool := suf.data.isSuffixOf name.data

/-- Files matching `*_<h>.json`. -/
def globPref (fs : FS) (h : String) : List (String × Json) :=
  fs.pareto.filter (fun p => strEnds p.1 ("_" ++ h ++ ".json"))

/-- Files matching `*<h>.json`. -/
def globAny (fs : FS) (h : String) : List (String × Json) :=
  fs.pareto.filter (fun p => strEnds p.1 (h ++ ".json"))

/-- Files matching the literal pattern `<h>.json`. -/
def globBare (fs : FS) (h : String) : List (String × Json) :=
  fs.pareto.filter (fun p => p.1 == h ++ ".json")

/-- `open(tmp,"w"); json.dump(...); os.replace(tmp, filepath)`: atomically
create or overwrite `name`. -/
def FS.writePareto (fs : FS) (name : String) (c : Json) : FS :=
  { fs with pareto := fs.pareto.filter (fun p => p.1 ≠ name) ++ [(name, c)] }

/-- `os.rename(old, new)` inside `pareto/` (overwrites `new` if present). -/
def FS.renameP (fs : FS) (old nw : String) : FS :=
  if old = nw then fs
  else
    { fs with pareto := ((fs.pareto.filter (fun p => p.1 ≠ nw)).map
        (fun p => if p.1 = old then (nw, p.2) else p)) }

/-- `_save_index`: write the sorted hash list to a temp file, then atomically
replace `index.json`. -/
def save_index (s : Store) : Store :=
  { s with fs := { s.fs with indexFile := some (sortStr s.hashes) } }

/-- `load_entry`: first file matching `*_<h>.json`, else the literal
`<h>.json`, else `FileNotFoundError`. -/
def loadEntryF (fs : FS) (h : String) : Except PyErr Json :=
  match globPref fs h with
  | p :: _ => .ok p.2
  | [] =>
      match globBare fs h with
      | p :: _ => .ok p.2
      | [] => .error .fileNotFound

def load_entry (s : Store) (h : String) : Except PyErr Json := loadEntryF s.fs h

/-- Sequence a fallible map over a list (Python exceptions propagate). -/
def mapE (f : α → Except PyErr β) : List α → Except PyErr (List β)
  | [] => .ok []
  | x :: xs =>
      match f x with
      | .error e => .error e
      | .ok y =>
          match mapE f xs with
          | .error e => .error e
          | .ok ys => .ok (y :: ys)

def lookupKV (kvs : List (String × Json)) (k : String) : Option Json :=
  (kvs.find? (fun kv => kv.1 == k)).map Prod.snd

/-- `entry.get("analyses_combined", {})` viewed as a key/value list:
missing ↦ `{}`; a non-dict entry or non-dict value raises (`AttributeError`
/ `TypeError`, collapsed into `typeError`). -/
def acPairsE (e : Json) : Except PyErr (List (String × Json)) :=
  match e with
  | .obj kvs =>
      match lookupKV kvs "analyses_combined" with
      | none => .ok []
      | some (.obj ac) => .ok ac
      | some _ => .error .typeError
  | _ => .error .typeError

def Json.isNull : Json → Bool
  | .null => true
  | _ => false

def toNumE : Json → Except PyErr ℚ
  | .num q => .ok q
  | _ => .error .typeError

def minList (l : List ℚ) : ℚ :=
  match l with
  | [] => 0
  | x :: xs => xs.foldl min x

def maxList (l : List ℚ) : ℚ :=
  match l with
  | [] => 0
  | x :: xs => xs.foldl max x

/-- `s.startswith(pre)`. -/
def strStarts (s pre : String) : Bool := pre.data.isPrefixOf s.data

/-- `e["analyses_combined"]` (direct subscript: `KeyError` when missing). -/
def subscriptAC (e : Json) : Except PyErr Json :=
  match e with
  | .obj kvs =>
      match lookupKV kvs "analyses_combined" with
      | some v => .ok v
      | none => .error .keyError
  | _ => .error .typeError

/-- `j.get(k)` where `j` must be a dict. -/
def dictGetE (j : Json) (k : String) : Except PyErr (Option Json) :=
  match j with
  | .obj kvs => .ok (lookupKV kvs k)
  | _ => .error .typeError

/-- The keys of `analyses_combined` that start with `w_`. -/
def wKeysOf (acs : List (String × Json)) : List String :=
  (acs.map Prod.fst).filter (fun k => strStarts k "w_")

/-- The `for key in sorted(w_keys)` loop of `compute_ideal_point`: per key,
collect the non-`None` values over all entries (raising on an entry without
`analyses_combined`), short-circuit to `None` if a key has no values, else
append `min(vals)`. -/
def idealLoop (entries : List Json) : List String → Except PyErr (Option (List ℚ))
  | [] => .ok (some [])
  | key :: rest =>
      match mapE (fun e =>
          match subscriptAC e with
          | .error er => .error er
          | .ok ac => dictGetE ac key) entries with
      | .error er => .error er
      | .ok vopts =>
          let vals := (vopts.reduceOption).filter (fun v => !v.isNull)
          if vals.isEmpty then .ok none
          else
            match mapE toNumE vals with
            | .error er => .error er
            | .ok nums =>
                match idealLoop entries rest with
                | .error er => .error er
                | .ok none => .ok none
                | .ok (some tl) => .ok (some (minList nums :: tl))

/-- `compute_ideal_point`.  NOTE the faithful bug: `entries[0]` is evaluated
*before* the `if not entries` guard, so an empty store raises `IndexError`. -/
def compute_ideal_point (s : Store) : Except PyErr (Option (List ℚ)) :=
  match mapE (load_entry s) s.hashes with
  | .error er => .error er
  | .ok entries =>
      match entries with
      | [] => .error .indexError
      | e0 :: _ =>
          match acPairsE e0 with
          | .error er => .error er
          | .ok acs =>
              let w_keys := wKeysOf acs
              if entries.isEmpty || w_keys.isEmpty then .ok none
              else idealLoop entries (sortStr w_keys)

/-! ## The ranking pass (`rename_entries_with_distance`) -/

/-- Per-objective normalization of one value (missing ↦ `inf`):
`(val - min) / denom if denom > 0 else 0.0`. -/
def normCoord (v : Option ℚ) (mn mx : ℚ) : PVal :=
  let val : PVal := match v with | some q => .fin q | none => .inf
  let denom := mx - mn
  if denom > 0 then (val.subQ mn).divQ denom else .fin 0

/-- The entry's normalized objective vector (`point` in the source). -/
def entryPoint (wvals : List (Option ℚ)) (mins maxs : List ℚ) : List PVal :=
  List.zipWith (fun v mm => normCoord v mm.1 mm.2) wvals (mins.zip maxs)

/-- Normalization of one ideal-point coordinate. -/
def normIdeal (idl mn mx : ℚ) : ℚ :=
  if mx - mn > 0 then (idl - mn) / (mx - mn) else 0

def idealNormOf (ideal mins maxs : List ℚ) : List ℚ :=
  List.zipWith (fun i mm => normIdeal i mm.1 mm.2) ideal (mins.zip maxs)

/-- `sum((p - i) ** 2 for p, i in zip(point, ideal_norm))` — the square of
the assigned distance (`dist = math.sqrt` of this). -/
def entryDistSq (point : List PVal) (idealNorm : List ℚ) : PVal :=
  sumP ((point.zip idealNorm).map (fun pi => (pi.1.subQ pi.2).sq))

/-- The `w_i` values of one entry, as used by the rename loop:
`entry.get("analyses_combined", {}).get(key)`, `None`/missing ↦ `none`,
non-numeric values raise. -/
def wvalsOfE (e : Json) (keys : List String) : Except PyErr (List (Option ℚ)) :=
  match acPairsE e with
  | .error er => .error er
  | .ok acs =>
      mapE (fun k =>
        match lookupKV acs k with
        | none => .ok none
        | some .null => .ok none
        | some (.num q) => .ok (some q)
        | some _ => .error .typeError) keys

/-- One column of `value_matrix`: the non-`None` values of `key` over all
entries, in store order. -/
def colValsE (entries : List Json) (key : String) : Except PyErr (List Json) :=
  match mapE (fun e =>
      match acPairsE e with
      | .error er => .error er
      | .ok acs => .ok (lookupKV acs key)) entries with
  | .error er => .error er
  | .ok vopts => .ok ((vopts.reduceOption).filter (fun v => !v.isNull))

def minColE (vs : List Json) : Except PyErr ℚ :=
  if vs.isEmpty then .error .valueError
  else
    match mapE toNumE vs with
    | .error er => .error er
    | .ok ns => .ok (minList ns)

def maxColE (vs : List Json) : Except PyErr ℚ :=
  if vs.isEmpty then .error .valueError
  else
    match mapE toNumE vs with
    | .error er => .error er
    | .ok ns => .ok (maxList ns)

structure RenCtx where
  w_keys : List String
  mins : List ℚ
  maxs : List ℚ
  idealNorm : List ℚ

/-- One iteration of the `for h in sorted(self.hashes)` rename loop; any
caught exception (`except ... print`) leaves the filesystem unchanged, as
does an empty glob (`continue`). -/
def renameOne (ctx : RenCtx) (fs : FS) (h : String) : FS :=
  match loadEntryF fs h with
  | .error _ => fs
  | .ok e =>
      match wvalsOfE e ctx.w_keys with
      | .error _ => fs
      | .ok wvals =>
          let point := entryPoint wvals ctx.mins ctx.maxs
          let pref := distPrefP (entryDistSq point ctx.idealNorm)
          match globAny fs h with
          | [] => fs
          | p :: _ => fs.renameP p.1 (pref ++ "_" ++ h ++ ".json")

/-- `rename_entries_with_distance`.  Returns the store unchanged when the
ideal point is `None` or no `w_i` keys are found (logged no-ops); uncaught
exceptions surface as errors. -/
def rename_entries (s : Store) : Except PyErr Store :=
  match compute_ideal_point s with
  | .error er => .error er
  | .ok none => .ok s
  | .ok (some ideal) =>
      match s.hashes with
      | [] => .error .stopIteration
      | h0 :: _ =>
          match load_entry s h0 with
          | .error er => .error er
          | .ok sample =>
              match acPairsE sample with
              | .error er => .error er
              | .ok acs =>
                  let w_keys := sortStr (wKeysOf acs)
                  if w_keys.isEmpty then .ok s
                  else
                    match mapE (load_entry s) s.hashes with
                    | .error er => .error er
                    | .ok entries =>
                        match mapE (colValsE entries) w_keys with
                        | .error er => .error er
                        | .ok cols =>
                            match mapE minColE cols with
                            | .error er => .error er
                            | .ok mins =>
                                match mapE maxColE cols with
                                | .error er => .error er
                                | .ok maxs =>
                                    let ctx : RenCtx :=
                                      ⟨w_keys, mins, maxs, idealNormOf ideal mins maxs⟩
                                    .ok { s with
                                      fs := (sortStr s.hashes).foldl (renameOne ctx) s.fs }

/-! ## Store mutators -/

/-- Failure injection for `add_entry`'s `try` block: no failure, or an I/O
exception at the entry write (`open`/`json.dump`/`os.replace`), at
`_save_index`, or raised out of `rename_entries_with_distance`. -/
inductive AddFail where
  | noFail
  | atWrite
  | atSaveIndex
  | atRename
deriving DecidableEq

/-- `add_entry`, with an injected failure point.  The dedup check happens
before the `try`; each failure is caught and surfaced as `False`. -/
def add_entry_f (f : AddFail) (s : Store) (entry : Json) : Bool × Store :=
  let rounded := round_floats entry s.sig_digits
  let h := hash_entry rounded
  if h ∈ s.hashes then (false, s)
  else
    match f with
    | .atWrite => (false, s)
    | f =>
        let s1 : Store := { s with
          fs := s.fs.writePareto (h ++ ".json") rounded,
          hashes := s.hashes ++ [h] }
        match f with
        | .atSaveIndex => (false, s1)
        | f =>
            let s2 := save_index s1
            match f with
            | .atRename => (false, s2)
            | _ =>
                match rename_entries s2 with
                | .error _ => (false, s2)
                | .ok s3 => (true, s3)

/-- `add_entry` without injected failures. -/
def add_entry (s : Store) (entry : Json) : Bool × Store :=
  add_entry_f .noFail s entry

/-- `remove_entry`: delete every file matching `*_<h>.json`, report whether
any was deleted, and drop `h` from the index (persisting it) when present. -/
def remove_entry (s : Store) (h : String) : Bool × Store :=
  let ms := globPref s.fs h
  let fs' : FS := { s.fs with
    pareto := s.fs.pareto.filter (fun p => !(strEnds p.1 ("_" ++ h ++ ".json"))) }
  let success := !ms.isEmpty
  if h ∈ s.hashes then
    (success, save_index { s with fs := fs', hashes := s.hashes.erase h })
  else
    (success, { s with fs := fs' })

/-- `clear`: `remove_entry` for every hash (over a snapshot of the set),
delete `index.json`, clear the in-memory set. -/
def clear (s : Store) : Store :=
  let s1 := s.hashes.foldl (fun st h => (remove_entry st h).2) s
  { s1 with fs := { s1.fs with indexFile := none }, hashes := [] }

/-! ## `compute_ideal` (the standalone multi-mode ideal-point function) -/

/-- `values_matrix.min(axis=0)` for a rectangular row-major matrix. -/
def npMinA0 (m : List (List ℚ)) : List ℚ :=
  match m with
  | [] => []
  | r :: rs => rs.foldl (fun acc row => List.zipWith min acc row) r

/-- `values_matrix.max(axis=0)`. -/
def npMaxA0 (m : List (List ℚ)) : List ℚ :=
  match m with
  | [] => []
  | r :: rs => rs.foldl (fun acc row => List.zipWith max acc row) r

/-- `compute_ideal(values_matrix, mode="min")`. -/
def compute_ideal_min (m : List (List ℚ)) : List ℚ := npMinA0 m

/-- `compute_ideal(values_matrix, mode="weighted", weights=w)`:
`vmin + weights * (vmax - vmin)`, elementwise. -/
def compute_ideal_weighted (m : List (List ℚ)) (weights : List ℚ) : List ℚ :=
  List.zipWith (· + ·) (npMinA0 m)
    (List.zipWith (· * ·) weights (List.zipWith (· - ·) (npMaxA0 m) (npMinA0 m)))

/-! ## The hash-index/file consistency invariant -/

/-- `name` ends with `<h>.json` — the file is (bare- or prefix-named) the
entry file for hash `h`. -/
def matchesAny (h name : String) : Bool := strEnds name (h ++ ".json")

/-- `name` ends with `_<h>.json` — the distance-prefixed form. -/
def matchesPref (h name : String) : Bool := strEnds name ("_" ++ h ++ ".json")

/-- The spec's Hash-Index invariant over a directory listing and a hash
set: every hash has exactly one entry file whose name ends with it, and
every entry file belongs to some indexed hash. -/
def consistentF (fs : FS) (hs : List String) : Prop :=
  (∀ h ∈ hs, (fs.pareto.filter (fun p => matchesAny h p.1)).length = 1) ∧
  (∀ p ∈ fs.pareto, ∃ h ∈ hs, matchesAny h p.1 = true)

/-- The spec's Hash-Index invariant for a store. -/
def consistent (s : Store) : Prop := consistentF s.fs s.hashes

/-- Every indexed hash is backed by at least one entry file on disk. -/
def indexBacked (s : Store) : Prop :=
  ∀ h ∈ s.hashes, ∃ p ∈ s.fs.pareto, matchesAny h p.1 = true

/-! ## `compute_ideal(..., mode="geomedian")`: Weiszfeld's algorithm over `ℝ` -/

noncomputable section

open Classical in
/-- Column sums of a row-major matrix (`.sum(axis=0)`). -/
def colSums (m : List (List ℝ)) : List ℝ :=
  match m with
  | [] => []
  | r :: rs => rs.foldl (fun acc row => List.zipWith (· + ·) acc row) r

/-- `values_matrix.mean(axis=0)`. -/
def npMean (m : List (List ℝ)) : List ℝ :=
  (colSums m).map (fun x => x / m.length)

def sumSqDiff (p z : List ℝ) : ℝ :=
  ((p.zip z).map (fun q => (q.1 - q.2) ^ 2)).sum

/-- One row of `np.linalg.norm(values_matrix - z, axis=1)`. -/
def rowNorm (p z : List ℝ) : ℝ := Real.sqrt (sumSqDiff p z)

/-- One Weiszfeld step: weights `1/d` where `d > 0` (coincident points get
weight `0`), then the weighted average `(values_matrix * w[:, None]).sum(axis=0) / w.sum()`. -/
def wstep (pts : List (List ℝ)) (z : List ℝ) : List ℝ :=
  let ds := pts.map (fun p => rowNorm p z)
  let ws := ds.map (fun d => if 0 < d then 1 / d else 0)
  let scaled := (pts.zip ws).map (fun pw => pw.1.map (fun x => x * pw.2))
  (colSums scaled).map (fun x => x / ws.sum)

/-- `np.allclose(z, z_new, atol=1e-9)` (with numpy's default `rtol=1e-5`):
`|a - b| <= atol + rtol * |b|` elementwise. -/
def allclose (a b : List ℝ) : Prop :=
  ∀ q ∈ a.zip b, |q.1 - q.2| ≤ 1 / 10 ^ 9 + (1 / 10 ^ 5) * |q.2|

open Classical in
/-- The `for _ in range(10)` loop: compute `z_new`, break (returning the old
`z`) once `allclose`, else continue from `z_new`. -/
def wLoop (pts : List (List ℝ)) : ℕ → List ℝ → List ℝ
  | 0, z => z
  | k + 1, z =>
      let z' := wstep pts z
      if allclose z z' then z else wLoop pts k z'

/-- `compute_ideal(values_matrix, mode="geomedian")`: Weiszfeld from the
column-wise mean, at most 10 iterations. -/
def compute_ideal_geomedian (pts : List (List ℝ)) : List ℝ :=
  wLoop pts 10 (npMean pts)

end

/-! ## Spec-side definitions for the ranking formulas (C5)

These follow the specification's wording, to be compared with the
source-derived `entryPoint` / `idealNormOf` / `entryDistSq`. -/

/-- Spec: "for each objective, `(value − min) / (max − min)` if `max > min`,
else `0.0`; a missing objective value is treated as `+infinity` before
normalization". -/
def specNormVal (v : Option ℚ) (mn mx : ℚ) : PVal :=
  let value : PVal := match v with | some q => .fin q | none => .inf
  if mx > mn then
    match value with
    | .fin q => .fin ((q - mn) / (mx - mn))
    | .inf => .inf
  else .fin 0

/-- Spec: the entry's normalized objective vector. -/
def specNormVec (wvals : List (Option ℚ)) (mins maxs : List ℚ) : List PVal :=
  List.zipWith (fun v mm => specNormVal v mm.1 mm.2) wvals (mins.zip maxs)

/-- Spec: "Normalize the Ideal Point the same way" (its coordinates are
always present). -/
def specIdealNormVec (ideal mins maxs : List ℚ) : List ℚ :=
  List.zipWith (fun i mm => if mm.2 > mm.1 then (i - mm.1) / (mm.2 - mm.1) else 0)
    ideal (mins.zip maxs)

/-- Spec: "Distance = Euclidean norm of (normalized entry vector −
normalized ideal point)" — the square of that norm: the difference vector,
its coordinates squared and summed. -/
def specDistSq (v : List PVal) (w : List ℚ) : PVal :=
  sumP ((List.zipWith PVal.subQ v w).map PVal.sq)

/-! ## Lexicographic-order lemmas -/

theorem lexLt_irrefl (l : List Char) : ¬ lexLt l l := by
  induction l with
  | nil => simp [lexLt]
  | cons a as ih => simp [lexLt, lt_irrefl]; exact ih

theorem lexLt_trans : ∀ (a b c : List Char), lexLt a b → lexLt b c → lexLt a c := by
  intro a
  induction a with
  | nil =>
      intro b c h1 h2
      cases b <;> cases c <;> simp_all [lexLt]
  | cons x xs ih =>
      intro b c h1 h2
      cases b with
      | nil => simp [lexLt] at h1
      | cons y ys =>
          cases c with
          | nil => simp [lexLt] at h2
          | cons z zs =>
              simp only [lexLt] at h1 h2 ⊢
              rcases h1 with h1 | ⟨rfl, h1⟩
              · rcases h2 with h2 | ⟨rfl, h2⟩
                · exact Or.inl (lt_trans h1 h2)
                · exact Or.inl h1
              · rcases h2 with h2 | ⟨rfl, h2⟩
                · exact Or.inl h2
                · exact Or.inr ⟨rfl, ih ys zs h1 h2⟩

theorem lexLt_asymm {a b : List Char} (h1 : lexLt a b) (h2 : lexLt b a) : False :=
  lexLt_irrefl a (lexLt_trans a b a h1 h2)

theorem lexLt_tri (a b : List Char) : lexLt a b ∨ a = b ∨ lexLt b a := by
  induction a generalizing b with
  | nil => cases b <;> simp [lexLt]
  | cons x xs ih =>
      cases b with
      | nil => simp [lexLt]
      | cons y ys =>
          rcases lt_trichotomy x y with h | rfl | h
          · exact Or.inl (Or.inl h)
          · rcases ih ys with h | rfl | h
            · exact Or.inl (Or.inr ⟨rfl, h⟩)
            · exact Or.inr (Or.inl rfl)
            · exact Or.inr (Or.inr (Or.inr ⟨rfl, h⟩))
          · exact Or.inr (Or.inr (Or.inl h))

theorem lexLt_append {as bs : List Char} (cs ds : List Char)
    (hlen : as.length = bs.length) (h : lexLt as bs) :
    lexLt (as ++ cs) (bs ++ ds) := by
  induction as generalizing bs with
  | nil =>
      cases bs with
      | nil => simp [lexLt] at h
      | cons _ _ => simp at hlen
  | cons x xs ih =>
      cases bs with
      | nil => simp at hlen
      | cons y ys =>
          simp only [lexLt, List.cons_append] at h ⊢
          rcases h with h | ⟨rfl, h⟩
          · exact Or.inl h
          · exact Or.inr ⟨rfl, ih (by simpa using hlen) h⟩

theorem lexLt_append_left (xs : List Char) {cs ds : List Char} (h : lexLt cs ds) :
    lexLt (xs ++ cs) (xs ++ ds) := by
  induction xs with
  | nil => simpa using h
  | cons a as ih => exact Or.inr ⟨rfl, ih⟩

/-! ## Digit-string lemmas for the distance prefix -/

theorem digitChar_lt_digitChar : ∀ d < 10, ∀ e < 10, d < e → digitChar d < digitChar e := by
  decide

theorem padDigits_length (w n : ℕ) : (padDigits w n).length = w := by
  induction w generalizing n with
  | zero => simp [padDigits]
  | succ w ih => simp [padDigits, ih]

theorem padDigits_lt : ∀ (w m n : ℕ), m < n → n < 10 ^ w →
    lexLt (padDigits w m) (padDigits w n) := by
  intro w
  induction w with
  | zero =>
      intro m n h h10
      simp [pow_zero] at h10
      omega
  | succ w ih =>
      intro m n h h10
      have hw : (0 : ℕ) < 10 ^ w := pow_pos (by norm_num) w
      have h10' : n < 10 * 10 ^ w := by rw [pow_succ, mul_comm] at h10; exact h10
      have hnd : n / 10 ^ w < 10 := by rw [Nat.div_lt_iff_lt_mul hw]; exact h10'
      have hmd : m / 10 ^ w < 10 := by
        rw [Nat.div_lt_iff_lt_mul hw]; exact lt_trans h h10'
      have hle : m / 10 ^ w ≤ n / 10 ^ w := Nat.div_le_div_right h.le
      simp only [padDigits]
      rcases lt_or_eq_of_le hle with hlt | heq
      · exact Or.inl (digitChar_lt_digitChar _ hmd _ hnd hlt)
      · refine Or.inr ⟨by rw [heq], ?_⟩
        apply ih
        · have hm := Nat.div_add_mod m (10 ^ w)
          have hn := Nat.div_add_mod n (10 ^ w)
          rw [heq] at hm
          omega
        · exact Nat.mod_lt _ hw

theorem strLt_mk (l1 l2 : List Char) : strLt (String.mk l1) (String.mk l2) = lexLt l1 l2 := rfl

/-! ## Integer square root and the rounded distance value -/

theorem sqrtF_bounds : ∀ (fuel n : ℕ), n ≤ fuel →
    sqrtF fuel n * sqrtF fuel n ≤ n ∧ n < (sqrtF fuel n + 1) * (sqrtF fuel n + 1) := by
  intro fuel
  induction fuel with
  | zero =>
      intro n hn
      have : n = 0 := Nat.le_zero.mp hn
      subst this
      simp [sqrtF]
  | succ f ih =>
      intro n hn
      by_cases h2 : n < 2
      · interval_cases n <;> simp [sqrtF]
      · have hrec := ih (n / 4) (by omega)
        have hunf : sqrtF (f + 1) n =
            if (2 * sqrtF f (n / 4) + 1) * (2 * sqrtF f (n / 4) + 1) ≤ n
            then 2 * sqrtF f (n / 4) + 1 else 2 * sqrtF f (n / 4) := by
          simp only [sqrtF]
          rw [if_neg h2]
        rw [hunf]
        obtain ⟨h1, h2'⟩ := hrec
        set r := sqrtF f (n / 4) with hr
        have ha : (2 * r) * (2 * r) ≤ n := by
          have hq : 4 * (r * r) ≤ 4 * (n / 4) := by omega
          have hd : 4 * (n / 4) ≤ n := by
            have := Nat.div_mul_le_self n 4
            omega
          calc (2 * r) * (2 * r) = 4 * (r * r) := by ring
          _ ≤ 4 * (n / 4) := hq
          _ ≤ n := hd
        have hb : n < (2 * r + 2) * (2 * r + 2) := by
          have hmod : n < 4 * (n / 4) + 4 := by
            have := Nat.div_add_mod n 4
            have := Nat.mod_lt n (show 0 < 4 by norm_num)
            omega
          have hstep : 4 * (n / 4) + 4 ≤ 4 * ((r + 1) * (r + 1)) := by omega
          calc n < 4 * (n / 4) + 4 := hmod
          _ ≤ 4 * ((r + 1) * (r + 1)) := hstep
          _ = (2 * r + 2) * (2 * r + 2) := by ring
        by_cases hc : (2 * r + 1) * (2 * r + 1) ≤ n
        · rw [if_pos hc]
          refine ⟨hc, ?_⟩
          have he : (2 * r + 1 + 1) * (2 * r + 1 + 1) = (2 * r + 2) * (2 * r + 2) := by ring
          rw [he]
          exact hb
        · rw [if_neg hc]
          exact ⟨ha, Nat.lt_of_not_le hc⟩

theorem natSqrt_bounds (n : ℕ) :
    natSqrt n * natSqrt n ≤ n ∧ n < (natSqrt n + 1) * (natSqrt n + 1) :=
  sqrtF_bounds n n le_rfl

theorem natSqrt_real_le (n : ℕ) : (natSqrt n : ℝ) ≤ Real.sqrt n := by
  rw [Real.le_sqrt (by positivity) (by positivity)]
  have := (natSqrt_bounds n).1
  have : ((natSqrt n * natSqrt n : ℕ) : ℝ) ≤ (n : ℝ) := by exact_mod_cast this
  calc ((natSqrt n : ℝ)) ^ 2 = ((natSqrt n * natSqrt n : ℕ) : ℝ) := by push_cast; ring
  _ ≤ (n : ℝ) := this

theorem natSqrt_real_lt (n : ℕ) : Real.sqrt n < natSqrt n + 1 := by
  rw [Real.sqrt_lt' (by positivity)]
  have := (natSqrt_bounds n).2
  have : ((n : ℕ) : ℝ) < (((natSqrt n + 1) * (natSqrt n + 1) : ℕ) : ℝ) := by exact_mod_cast this
  calc (n : ℝ) < (((natSqrt n + 1) * (natSqrt n + 1) : ℕ) : ℝ) := this
  _ = ((natSqrt n : ℝ) + 1) ^ 2 := by push_cast; ring

/-- `roundSqrtE4 s` is `floor(sqrt(s * 10^8) + 1/2)`: the two bracketing
inequalities over `ℝ`. -/
theorem roundSqrtE4_bounds (s : ℚ) (hs : 0 ≤ s) :
    (roundSqrtE4 s : ℝ) ≤ Real.sqrt ((s : ℝ) * 10 ^ 8) + 1 / 2 ∧
    Real.sqrt ((s : ℝ) * 10 ^ 8) + 1 / 2 < (roundSqrtE4 s : ℝ) + 1 := by
  have hb : (0 : ℕ) < s.den := s.den_pos
  have hbR : (0 : ℝ) < (s.den : ℝ) := by exact_mod_cast hb
  set a : ℕ := s.num.toNat with hadef
  set b : ℕ := s.den with hbdef
  set N : ℕ := 4 * (a * 100000000) * b with hNdef
  have hcast : ((a : ℝ)) = ((s.num : ℤ) : ℝ) := by
    have : ((a : ℤ)) = s.num := Int.toNat_of_nonneg (Rat.num_nonneg.mpr hs)
    exact_mod_cast congrArg (fun z : ℤ => (z : ℝ)) this
  have hsR : (s : ℝ) = (a : ℝ) / (b : ℝ) := by
    rw [Rat.cast_def, hcast]
  -- s * 10^8 = N / (2*b)^2
  have hkey : (s : ℝ) * 10 ^ 8 = (N : ℝ) / ((2 * b : ℝ)) ^ 2 := by
    rw [hsR, hNdef]
    push_cast
    field_simp
    ring
  have hsqrtN : Real.sqrt ((s : ℝ) * 10 ^ 8) = Real.sqrt N / (2 * b) := by
    rw [hkey, Real.sqrt_div (by positivity), Real.sqrt_sq (by positivity)]
  have hNl : (natSqrt N : ℝ) ≤ Real.sqrt N := natSqrt_real_le N
  have hNu : Real.sqrt N < (natSqrt N : ℝ) + 1 := natSqrt_real_lt N
  have hq : roundSqrtE4 s = (natSqrt N + b) / (2 * b) := rfl
  constructor
  · -- lower bound
    have h1 : (roundSqrtE4 s : ℕ) * (2 * b) ≤ natSqrt N + b := by
      rw [hq]; exact Nat.div_mul_le_self _ _
    have h1R : (roundSqrtE4 s : ℝ) * (2 * b : ℝ) ≤ (natSqrt N : ℝ) + (b : ℝ) := by
      exact_mod_cast h1
    have h2R : (natSqrt N : ℝ) + (b : ℝ) ≤ Real.sqrt N + b := by linarith
    rw [hsqrtN]
    have hfinal : (roundSqrtE4 s : ℝ) ≤ (Real.sqrt N + b) / (2 * b) := by
      rw [le_div_iff₀ (by positivity)]
      calc (roundSqrtE4 s : ℝ) * (2 * b) ≤ (natSqrt N : ℝ) + b := h1R
      _ ≤ Real.sqrt N + b := h2R
    calc (roundSqrtE4 s : ℝ) ≤ (Real.sqrt N + b) / (2 * b) := hfinal
    _ = Real.sqrt N / (2 * b) + 1 / 2 := by field_simp; ring
  · -- upper bound
    have h1 : natSqrt N + b < (roundSqrtE4 s + 1) * (2 * b) := by
      rw [hq]
      have h2b : (0 : ℕ) < 2 * b := by omega
      have := (Nat.div_lt_iff_lt_mul h2b).mp
        (Nat.lt_succ_of_le (le_refl ((natSqrt N + b) / (2 * b))))
      exact this
    have h1n : natSqrt N + b + 1 ≤ (roundSqrtE4 s + 1) * (2 * b) := h1
    have h1R : ((natSqrt N : ℝ) + b + 1) ≤ ((roundSqrtE4 s : ℝ) + 1) * (2 * b) := by
      exact_mod_cast h1n
    rw [hsqrtN]
    have : (Real.sqrt N + b) / (2 * b) < (roundSqrtE4 s : ℝ) + 1 := by
      rw [div_lt_iff₀ (by positivity)]
      calc Real.sqrt N + (b : ℝ) < (natSqrt N : ℝ) + 1 + b := by linarith
      _ ≤ ((roundSqrtE4 s : ℝ) + 1) * (2 * b) := by linarith
    calc Real.sqrt N / (2 * b) + 1 / 2 = (Real.sqrt N + b) / (2 * b) := by field_simp; ring
    _ < (roundSqrtE4 s : ℝ) + 1 := this

theorem roundSqrtE4_mono {s1 s2 : ℚ} (h0 : 0 ≤ s1) (h : s1 ≤ s2) :
    roundSqrtE4 s1 ≤ roundSqrtE4 s2 := by
  have h0' : (0 : ℚ) ≤ s2 := le_trans h0 h
  have b1 := roundSqrtE4_bounds s1 h0
  have b2 := roundSqrtE4_bounds s2 h0'
  have hm : Real.sqrt ((s1 : ℝ) * 10 ^ 8) ≤ Real.sqrt ((s2 : ℝ) * 10 ^ 8) := by
    apply Real.sqrt_le_sqrt
    have : (s1 : ℝ) ≤ (s2 : ℝ) := by exact_mod_cast h
    nlinarith
  have : (roundSqrtE4 s1 : ℝ) < (roundSqrtE4 s2 : ℝ) + 1 := by
    calc (roundSqrtE4 s1 : ℝ) ≤ Real.sqrt ((s1 : ℝ) * 10 ^ 8) + 1 / 2 := b1.1
    _ ≤ Real.sqrt ((s2 : ℝ) * 10 ^ 8) + 1 / 2 := add_le_add_right hm _
    _ < (roundSqrtE4 s2 : ℝ) + 1 := b2.2
  exact_mod_cast Nat.lt_succ_iff.mp (by exact_mod_cast this)

/-- `roundSqrtE4 s = n` whenever `n` satisfies the defining floor bracket. -/
theorem roundSqrtE4_eq (s : ℚ) (n : ℕ) (hs : 0 ≤ s)
    (hlow : (n : ℝ) ≤ Real.sqrt ((s : ℝ) * 10 ^ 8) + 1 / 2)
    (hhigh : Real.sqrt ((s : ℝ) * 10 ^ 8) + 1 / 2 < (n : ℝ) + 1) :
    roundSqrtE4 s = n := by
  have b := roundSqrtE4_bounds s hs
  have h1 : (roundSqrtE4 s : ℝ) < (n : ℝ) + 1 := lt_of_le_of_lt b.1 hhigh
  have h2 : (n : ℝ) < (roundSqrtE4 s : ℝ) + 1 := lt_of_le_of_lt hlow b.2
  have h1' : roundSqrtE4 s < n + 1 := by exact_mod_cast h1
  have h2' : n < roundSqrtE4 s + 1 := by exact_mod_cast h2
  omega

/-- Monotonicity of the fixed-point formatter below the 8-character bound:
a smaller fixed-point value formats equal or lexically smaller. -/
theorem fmtFixed_mono (m n : ℕ) (h : m ≤ n) (hn : n < 10 ^ 7) :
    fmtFixed m = fmtFixed n ∨ strLt (fmtFixed m) (fmtFixed n) := by
  rcases eq_or_lt_of_le h with rfl | hlt
  · exact Or.inl rfl
  right
  have hm7 : m < 10 ^ 7 := lt_trans hlt hn
  have e1 : fmtFixed m = String.mk (padDigits 3 (m / 10 ^ 4) ++ ['.'] ++ padDigits 4 (m % 10 ^ 4)) := by
    unfold fmtFixed; rw [if_pos hm7]
  have e2 : fmtFixed n = String.mk (padDigits 3 (n / 10 ^ 4) ++ ['.'] ++ padDigits 4 (n % 10 ^ 4)) := by
    unfold fmtFixed; rw [if_pos hn]
  rw [e1, e2, strLt_mk]
  have hi : m / 10 ^ 4 ≤ n / 10 ^ 4 := Nat.div_le_div_right hlt.le
  have hnd : n / 10 ^ 4 < 10 ^ 3 := by
    have : (0:ℕ) < 10 ^ 4 := by norm_num
    rw [Nat.div_lt_iff_lt_mul this]
    calc n < 10 ^ 7 := hn
    _ = 10 ^ 3 * 10 ^ 4 := by norm_num
  rcases lt_or_eq_of_le hi with hilt | hieq
  · have hstep : lexLt (padDigits 3 (m / 10 ^ 4)) (padDigits 3 (n / 10 ^ 4)) :=
      padDigits_lt 3 _ _ hilt hnd
    rw [List.append_assoc, List.append_assoc]
    exact lexLt_append _ _ (by rw [padDigits_length, padDigits_length]) hstep
  · have hfrac : m % 10 ^ 4 < n % 10 ^ 4 := by
      have hm := Nat.div_add_mod m (10 ^ 4)
      have hn' := Nat.div_add_mod n (10 ^ 4)
      omega
    have hstep : lexLt (padDigits 4 (m % 10 ^ 4)) (padDigits 4 (n % 10 ^ 4)) :=
      padDigits_lt 4 _ _ hfrac (Nat.mod_lt _ (by norm_num))
    rw [hieq]
    exact lexLt_append_left _ hstep

/-! ## C6: lexical order of distance prefixes -/

/-- C6 (amended): for two ranked entries with squared distances `s1 < s2`
(equivalently, distances `sqrt s1 < sqrt s2`), as long as the larger rounded
value still fits the 8-character zero-padded format (`< 1000.0000`), E1's
distance prefix sorts lexically no later than E2's: it is equal when the two
distances round to the same 4-decimal value and strictly before otherwise.
(The original claim's strictness fails — see the counterexample.) -/
theorem C6_prefix_order (s1 s2 : ℚ) (h1 : 0 ≤ s1)
    (hlt : Real.sqrt ((s1 : ℝ)) < Real.sqrt ((s2 : ℝ)))
    (hb : roundSqrtE4 s2 < 10 ^ 7) :
    distPrefP (.fin s1) = distPrefP (.fin s2) ∨
      strLt (distPrefP (.fin s1)) (distPrefP (.fin s2)) := by
  have hs12 : s1 ≤ s2 := by
    by_contra hcon
    push_neg at hcon
    have hc : (s2 : ℝ) ≤ (s1 : ℝ) := by exact_mod_cast hcon.le
    exact absurd (Real.sqrt_le_sqrt hc) (not_le.mpr hlt)
  have hmono := roundSqrtE4_mono h1 hs12
  simpa [distPrefP] using fmtFixed_mono _ _ hmono hb

theorem roundSqrtE4_zero : roundSqrtE4 0 = 0 := by
  apply roundSqrtE4_eq 0 0 le_rfl
  · have : ((0 : ℚ) : ℝ) * 10 ^ 8 = 0 := by norm_num
    rw [this, Real.sqrt_zero]
    norm_num
  · have : ((0 : ℚ) : ℝ) * 10 ^ 8 = 0 := by norm_num
    rw [this, Real.sqrt_zero]
    norm_num

theorem roundSqrtE4_small : roundSqrtE4 (1 / 625000000) = 0 := by
  apply roundSqrtE4_eq _ 0 (by norm_num)
  · have h : ((1 / 625000000 : ℚ) : ℝ) * 10 ^ 8 = (2 / 5 : ℝ) ^ 2 := by
      push_cast
      norm_num
    rw [h, Real.sqrt_sq (by norm_num)]
    norm_num
  · have h : ((1 / 625000000 : ℚ) : ℝ) * 10 ^ 8 = (2 / 5 : ℝ) ^ 2 := by
      push_cast
      norm_num
    rw [h, Real.sqrt_sq (by norm_num)]
    norm_num

/-- C6 (counterexample to the claim as stated): in a ranking pass over
objective values `0` and `1/25000` (with `min = 0`, `max = 1`, normalized
ideal point `0`), the two computed squared distances are `0 < 1/625000000`
— so E1's distance is strictly smaller than E2's — yet the two assigned
zero-padded distance prefixes are *equal* (`"000.0000"`), not strictly
ordered; the full storage names then sort by hash, not by nearness. -/
theorem C6_counterexample :
    Real.sqrt (((0 : ℚ) : ℝ)) < Real.sqrt (((1 / 625000000 : ℚ) : ℝ)) ∧
    entryDistSq (entryPoint [some 0] [0] [1]) (idealNormOf [0] [0] [1]) = .fin 0 ∧
    entryDistSq (entryPoint [some (1 / 25000)] [0] [1]) (idealNormOf [0] [0] [1]) =
      .fin (1 / 625000000) ∧
    distPrefP (.fin 0) = distPrefP (.fin (1 / 625000000)) := by
  refine ⟨?_, ?_, ?_, ?_⟩
  · have h0 : ((0 : ℚ) : ℝ) = 0 := by norm_num
    have h1 : ((1 / 625000000 : ℚ) : ℝ) = 1 / 625000000 := by push_cast; ring
    rw [h0, h1, Real.sqrt_zero]
    apply Real.sqrt_pos.mpr
    norm_num
  · simp only [entryPoint, idealNormOf, entryDistSq, List.zip_cons_cons, List.zipWith,
      normCoord, normIdeal, PVal.subQ, PVal.divQ, PVal.sq, PVal.add, sumP, List.map,
      List.foldl, List.zip_nil_right]
    norm_num
  · simp only [entryPoint, idealNormOf, entryDistSq, List.zip_cons_cons, List.zipWith,
      normCoord, normIdeal, PVal.subQ, PVal.divQ, PVal.sq, PVal.add, sumP, List.map,
      List.foldl, List.zip_nil_right]
    norm_num
  · simp only [distPrefP, roundSqrtE4_zero, roundSqrtE4_small]

theorem roundSqrtE4_one : roundSqrtE4 1 = 10000 := by
  apply roundSqrtE4_eq _ 10000 (by norm_num)
  · have h : ((1 : ℚ) : ℝ) * 10 ^ 8 = ((10000 : ℝ)) ^ 2 := by norm_num
    rw [h, Real.sqrt_sq (by norm_num)]
    norm_num
  · have h : ((1 : ℚ) : ℝ) * 10 ^ 8 = ((10000 : ℝ)) ^ 2 := by norm_num
    rw [h, Real.sqrt_sq (by norm_num)]
    norm_num

/-- Witness for `C6_prefix_order` at the squared distances `0` and `1`. -/
theorem C6_prefix_order_witness :
    distPrefP (.fin 0) = distPrefP (.fin 1) ∨
      strLt (distPrefP (.fin 0)) (distPrefP (.fin 1)) := by
  apply C6_prefix_order 0 1 le_rfl
  · rw [show ((0 : ℚ) : ℝ) = 0 by norm_num, show ((1 : ℚ) : ℝ) = 1 by norm_num,
      Real.sqrt_zero, Real.sqrt_one]
    norm_num
  · rw [roundSqrtE4_one]
    norm_num

/-! ## C4: the hash is a canonical, key-order-insensitive 16-hex-char digest -/

def hexChars : List Char := "0123456789abcdef".data

theorem hexDigit_mem (m : ℕ) (hm : m < 16) : hexDigit m ∈ hexChars := by
  revert m
  decide

theorem hexWord_form (c : Char) (w : ℕ) (hc : c ∈ hexWord w) :
    ∃ x, c = hexDigit (x % 16) := by
  simp only [hexWord, List.mem_cons, List.not_mem_nil, or_false] at hc
  rcases hc with rfl | rfl | rfl | rfl | rfl | rfl | rfl | rfl
  all_goals exact ⟨_, rfl⟩

theorem hexDigest_mem_form (c : Char) (st : Sha8) (hc : c ∈ hexDigest st) :
    ∃ x, c = hexDigit (x % 16) := by
  simp only [hexDigest, List.mem_append] at hc
  rcases hc with ((((((h | h) | h) | h) | h) | h) | h) | h
  all_goals exact hexWord_form c _ h

theorem hexDigest_length (st : Sha8) : (hexDigest st).length = 64 := by
  simp [hexDigest, hexWord]

theorem hash_entry_length (e : Json) : (hash_entry e).length = 16 := by
  show (String.mk _).length = 16
  show (List.take 16 _).length = 16
  rw [List.length_take, hexDigest_length]
  norm_num

theorem hash_entry_hex (e : Json) : ∀ c ∈ (hash_entry e).data, c ∈ hexChars := by
  intro c hc
  have hc' : c ∈ hexDigest (sha256Words (utf8 (dumps e))) :=
    List.take_subset 16 _ hc
  obtain ⟨x, rfl⟩ := hexDigest_mem_form c _ hc'
  exact hexDigit_mem _ (Nat.mod_lt x (by norm_num))

/-! ### Sorting serialized key/value pairs is permutation-invariant -/

theorem String.data_injective {a b : String} (h : a.data = b.data) : a = b := by
  cases a
  cases b
  exact congrArg String.mk h

instance : IsTotal (String × String) keyLE := by
  constructor
  intro a b
  rcases lexLt_tri a.1.data b.1.data with h | h | h
  · exact Or.inl (Or.inl h)
  · exact Or.inl (Or.inr (String.data_injective h))
  · exact Or.inr (Or.inl h)

instance : IsTrans (String × String) keyLE := by
  constructor
  intro a b c hab hbc
  rcases hab with hab | hab
  · rcases hbc with hbc | hbc
    · exact Or.inl (lexLt_trans _ _ _ hab hbc)
    · exact Or.inl (hbc ▸ hab)
  · rcases hbc with hbc | hbc
    · exact Or.inl (hab ▸ hbc)
    · exact Or.inr (hab.trans hbc)

/-- Strict key order on serialized pairs. -/
def keyLt (a b : String × String) : Prop := strLt a.1 b.1

instance : IsAntisymm (String × String) keyLt :=
  ⟨fun _ _ h1 h2 => (lexLt_asymm h1 h2).elim⟩

theorem sorted_keyLE_strict {l : List (String × String)}
    (hs : l.Pairwise keyLE) (hnd : (l.map Prod.fst).Nodup) : l.Pairwise keyLt := by
  have hnd' : l.Pairwise (fun a b => a.1 ≠ b.1) := (List.pairwise_map).mp hnd
  have hboth := hs.and hnd'
  exact hboth.imp (fun {a b} hab => by
    rcases hab.1 with h | h
    · exact h
    · exact absurd h hab.2)

theorem sortPairs_eq_of_perm {l1 l2 : List (String × String)}
    (hp : l1.Perm l2) (hnd : (l1.map Prod.fst).Nodup) :
    sortPairs l1 = sortPairs l2 := by
  have p1 : (sortPairs l1).Perm l1 := List.perm_insertionSort keyLE l1
  have p2 : (sortPairs l2).Perm l2 := List.perm_insertionSort keyLE l2
  have p : (sortPairs l1).Perm (sortPairs l2) := p1.trans (hp.trans p2.symm)
  have s1 : (sortPairs l1).Pairwise keyLE := List.sorted_insertionSort keyLE l1
  have s2 : (sortPairs l2).Pairwise keyLE := List.sorted_insertionSort keyLE l2
  have nd1 : ((sortPairs l1).map Prod.fst).Nodup := (hnd.perm (p1.map Prod.fst).symm)
  have nd2 : ((sortPairs l2).map Prod.fst).Nodup := (nd1.perm (p.map Prod.fst))
  exact List.eq_of_perm_of_sorted p (sorted_keyLE_strict s1 nd1) (sorted_keyLE_strict s2 nd2)

theorem dumpsPairs_eq_map (kvs : List (String × Json)) :
    dumpsPairs kvs = kvs.map (fun kv => (kv.1, dumps kv.2)) := by
  induction kvs with
  | nil => simp [dumpsPairs]
  | cons kv rest ih =>
      cases kv
      simp [dumpsPairs, ih]

theorem dumps_obj_perm {kvs kvs' : List (String × Json)}
    (hperm : kvs.Perm kvs') (hnd : (kvs.map Prod.fst).Nodup) :
    dumps (Json.obj kvs) = dumps (Json.obj kvs') := by
  have hp : (dumpsPairs kvs).Perm (dumpsPairs kvs') := by
    rw [dumpsPairs_eq_map, dumpsPairs_eq_map]
    exact hperm.map _
  have hnd' : ((dumpsPairs kvs).map Prod.fst).Nodup := by
    rw [dumpsPairs_eq_map, List.map_map]
    exact hnd
  show "\x7b" ++ _ ++ "\x7d" = "\x7b" ++ _ ++ "\x7d"
  rw [sortPairs_eq_of_perm hp hnd']

/-- C4: `hash_entry` returns a fixed-length 16-character hexadecimal digest
derived from the canonical serialization of its input (keys sorted, no
incidental whitespace), so two entries with identical rounded content hash
identically regardless of the insertion order of their mapping keys. -/
theorem C4_hash_canonical (kvs kvs' : List (String × Json))
    (hperm : kvs.Perm kvs') (hnd : (kvs.map Prod.fst).Nodup) :
    (hash_entry (Json.obj kvs)).length = 16 ∧
    (∀ c ∈ (hash_entry (Json.obj kvs)).data, c ∈ hexChars) ∧
    hash_entry (Json.obj kvs) = hash_entry (Json.obj kvs') := by
  refine ⟨hash_entry_length _, hash_entry_hex _, ?_⟩
  unfold hash_entry
  rw [dumps_obj_perm hperm hnd]

/-- Witness for `C4_hash_canonical`: a two-key mapping and its key-swapped
permutation. -/
theorem C4_hash_canonical_witness :
    (hash_entry (Json.obj [("b", Json.num 2), ("a", Json.num 1)])).length = 16 ∧
    (∀ c ∈ (hash_entry (Json.obj [("b", Json.num 2), ("a", Json.num 1)])).data,
        c ∈ hexChars) ∧
    hash_entry (Json.obj [("b", Json.num 2), ("a", Json.num 1)]) =
      hash_entry (Json.obj [("a", Json.num 1), ("b", Json.num 2)]) :=
  C4_hash_canonical _ _ (List.Perm.swap _ _ _) (by decide)

/-! ## C7: `compute_ideal`, `min` and `weighted` modes -/

theorem getD_zipWith (f : ℚ → ℚ → ℚ) (a b : List ℚ) (j : ℕ)
    (ha : j < a.length) (hb : j < b.length) :
    (List.zipWith f a b).getD j 0 = f (a.getD j 0) (b.getD j 0) := by
  rw [List.getD_eq_getElem _ _ (by rw [List.length_zipWith]; omega),
    List.getElem_zipWith, List.getD_eq_getElem _ _ ha, List.getD_eq_getElem _ _ hb]

theorem foldl_zipWith_length (f : ℚ → ℚ → ℚ) (rs : List (List ℚ)) (r : List ℚ) (n : ℕ)
    (hr : r.length = n) (hrs : ∀ x ∈ rs, x.length = n) :
    (rs.foldl (fun acc row => List.zipWith f acc row) r).length = n := by
  induction rs generalizing r with
  | nil => simpa using hr
  | cons x xs ih =>
      simp only [List.foldl]
      apply ih
      · rw [List.length_zipWith, hr, hrs x (by simp)]
        omega
      · intro y hy
        exact hrs y (by simp [hy])

theorem foldl_zipWith_getD (f : ℚ → ℚ → ℚ) (rs : List (List ℚ)) (r : List ℚ) (n j : ℕ)
    (hr : r.length = n) (hrs : ∀ x ∈ rs, x.length = n) (hj : j < n) :
    (rs.foldl (fun acc row => List.zipWith f acc row) r).getD j 0 =
      rs.foldl (fun acc row => f acc (row.getD j 0)) (r.getD j 0) := by
  induction rs generalizing r with
  | nil => simp
  | cons x xs ih =>
      simp only [List.foldl]
      rw [ih (List.zipWith f r x)
        (by rw [List.length_zipWith, hr, hrs x (by simp)]; omega)
        (fun y hy => hrs y (by simp [hy])),
        getD_zipWith f r x j (by omega) (by rw [hrs x (by simp)]; omega)]

theorem foldl_min_mem (l : List ℚ) (x : ℚ) : l.foldl min x ∈ x :: l := by
  induction l generalizing x with
  | nil => simp
  | cons y ys ih =>
      have h := ih (min x y)
      simp only [List.foldl, List.mem_cons] at h ⊢
      rcases h with h1 | h1
      · rcases min_choice x y with hm | hm
        · exact Or.inl (h1.trans hm)
        · exact Or.inr (Or.inl (h1.trans hm))
      · exact Or.inr (Or.inr h1)

theorem foldl_min_le (l : List ℚ) : ∀ (x : ℚ), ∀ v ∈ x :: l, l.foldl min x ≤ v := by
  induction l with
  | nil =>
      intro x v hv
      simp at hv
      simp [hv]
  | cons y ys ih =>
      intro x v hv
      simp only [List.foldl]
      simp only [List.mem_cons] at hv
      rcases hv with rfl | rfl | hv''
      · exact le_trans (ih (min v y) (min v y) (by simp)) (min_le_left _ _)
      · exact le_trans (ih (min x v) (min x v) (by simp)) (min_le_right _ _)
      · exact ih (min x y) v (by simp [hv''])

theorem foldl_max_mem (l : List ℚ) (x : ℚ) : l.foldl max x ∈ x :: l := by
  induction l generalizing x with
  | nil => simp
  | cons y ys ih =>
      have h := ih (max x y)
      simp only [List.foldl, List.mem_cons] at h ⊢
      rcases h with h1 | h1
      · rcases max_choice x y with hm | hm
        · exact Or.inl (h1.trans hm)
        · exact Or.inr (Or.inl (h1.trans hm))
      · exact Or.inr (Or.inr h1)

theorem foldl_max_ge (l : List ℚ) : ∀ (x : ℚ), ∀ v ∈ x :: l, v ≤ l.foldl max x := by
  induction l with
  | nil =>
      intro x v hv
      simp at hv
      simp [hv]
  | cons y ys ih =>
      intro x v hv
      simp only [List.foldl]
      simp only [List.mem_cons] at hv
      rcases hv with rfl | rfl | hv''
      · exact le_trans (le_max_left _ _) (ih (max v y) (max v y) (by simp))
      · exact le_trans (le_max_right _ _) (ih (max x v) (max x v) (by simp))
      · exact ih (max x y) v (by simp [hv''])

theorem weighted_zero (mn mx : List ℚ) (h : mx.length = mn.length) :
    List.zipWith (· + ·) mn
      (List.zipWith (· * ·) (List.replicate mn.length 0)
        (List.zipWith (· - ·) mx mn)) = mn := by
  induction mn generalizing mx with
  | nil => simp
  | cons a as ih =>
      cases mx with
      | nil => simp at h
      | cons b bs =>
          simp only [List.length_cons, List.replicate_succ, List.zipWith, List.cons.injEq]
          constructor
          · ring
          · exact ih bs (by simpa using h)

theorem weighted_one (mn mx : List ℚ) (h : mx.length = mn.length) :
    List.zipWith (· + ·) mn
      (List.zipWith (· * ·) (List.replicate mn.length 1)
        (List.zipWith (· - ·) mx mn)) = mx := by
  induction mn generalizing mx with
  | nil => cases mx <;> simp_all
  | cons a as ih =>
      cases mx with
      | nil => simp at h
      | cons b bs =>
          simp only [List.length_cons, List.replicate_succ, List.zipWith, List.cons.injEq]
          constructor
          · ring
          · exact ih bs (by simpa using h)

theorem npMinA0_length (m : List (List ℚ)) (n : ℕ) (hne : m ≠ [])
    (hrect : ∀ r ∈ m, r.length = n) : (npMinA0 m).length = n := by
  cases m with
  | nil => exact absurd rfl hne
  | cons r rs =>
      exact foldl_zipWith_length min rs r n (hrect r (by simp))
        (fun x hx => hrect x (by simp [hx]))

theorem npMaxA0_length (m : List (List ℚ)) (n : ℕ) (hne : m ≠ [])
    (hrect : ∀ r ∈ m, r.length = n) : (npMaxA0 m).length = n := by
  cases m with
  | nil => exact absurd rfl hne
  | cons r rs =>
      exact foldl_zipWith_length max rs r n (hrect r (by simp))
        (fun x hx => hrect x (by simp [hx]))

/-- C7: in `min` mode `compute_ideal` returns the true per-column minimum
(it is attained by some row and bounds every row's value); in `weighted`
mode, all-zero weights reproduce `min` mode's result and all-one weights
give the per-column maximum. -/
theorem C7_compute_ideal (m : List (List ℚ)) (n : ℕ) (hne : m ≠ [])
    (hrect : ∀ r ∈ m, r.length = n) :
    (∀ j < n, (compute_ideal_min m).getD j 0 ∈ m.map (fun r => r.getD j 0) ∧
        ∀ v ∈ m.map (fun r => r.getD j 0), (compute_ideal_min m).getD j 0 ≤ v) ∧
    compute_ideal_weighted m (List.replicate n 0) = compute_ideal_min m ∧
    compute_ideal_weighted m (List.replicate n 1) = npMaxA0 m := by
  have hminlen := npMinA0_length m n hne hrect
  have hmaxlen := npMaxA0_length m n hne hrect
  refine ⟨?_, ?_, ?_⟩
  · intro j hj
    simp only [compute_ideal_min]
    cases m with
    | nil => exact absurd rfl hne
    | cons r rs =>
        have hr : r.length = n := hrect r (by simp)
        have hrs : ∀ x ∈ rs, x.length = n := fun x hx => hrect x (by simp [hx])
        have hkey : (npMinA0 (r :: rs)).getD j 0 =
            rs.foldl (fun acc row => min acc (row.getD j 0)) (r.getD j 0) := by
          show ((rs.foldl (fun acc row => List.zipWith min acc row) r)).getD j 0 = _
          exact foldl_zipWith_getD min rs r n j hr hrs hj
        have hfold : ∀ (l : List (List ℚ)) (x : ℚ),
            l.foldl (fun acc row => min acc (row.getD j 0)) x =
              (l.map (fun row => row.getD j 0)).foldl min x := by
          intro l
          induction l with
          | nil => intro x; simp
          | cons z zs ihz =>
              intro x
              simp only [List.foldl, List.map]
              rw [ihz]
        rw [hkey, hfold]
        constructor
        · simpa using foldl_min_mem (rs.map (fun row => row.getD j 0)) (r.getD j 0)
        · intro v hv
          apply foldl_min_le (rs.map (fun row => row.getD j 0)) (r.getD j 0)
          simpa using hv
  · show List.zipWith _ (npMinA0 m) (List.zipWith _ (List.replicate n 0) _) = npMinA0 m
    rw [← hminlen]
    exact weighted_zero (npMinA0 m) (npMaxA0 m) (by rw [hminlen, hmaxlen])
  · show List.zipWith _ (npMinA0 m) (List.zipWith _ (List.replicate n 1) _) = npMaxA0 m
    rw [← hminlen]
    exact weighted_one (npMinA0 m) (npMaxA0 m) (by rw [hminlen, hmaxlen])

/-- Witness for `C7_compute_ideal` on the 2×2 matrix [[1,2],[3,0]]. -/
theorem C7_compute_ideal_witness :
    (∀ j < 2, (compute_ideal_min [[1, 2], [3, 0]]).getD j 0 ∈
        [[(1 : ℚ), 2], [3, 0]].map (fun r => r.getD j 0) ∧
      ∀ v ∈ [[(1 : ℚ), 2], [3, 0]].map (fun r => r.getD j 0),
        (compute_ideal_min [[1, 2], [3, 0]]).getD j 0 ≤ v) ∧
    compute_ideal_weighted [[1, 2], [3, 0]] (List.replicate 2 0) =
      compute_ideal_min [[1, 2], [3, 0]] ∧
    compute_ideal_weighted [[1, 2], [3, 0]] (List.replicate 2 1) =
      npMaxA0 [[1, 2], [3, 0]] :=
  C7_compute_ideal [[1, 2], [3, 0]] 2 (by simp) (by intro r hr; fin_cases hr <;> simp)

/-! ## C8: Weiszfeld geomedian on the vertices of the unit square -/

theorem npMean_square :
    npMean [[0, 0], [0, 1], [1, 0], [1, 1]] = ([1 / 2, 1 / 2] : List ℝ) := by
  simp only [npMean, colSums, List.foldl, List.zipWith, List.map, List.length_cons,
    List.length_nil]
  norm_num

theorem wstep_square :
    wstep [[0, 0], [0, 1], [1, 0], [1, 1]] [1 / 2, 1 / 2] = ([1 / 2, 1 / 2] : List ℝ) := by
  simp only [wstep, rowNorm, sumSqDiff, List.map, List.zip_cons_cons, List.zip_nil_right,
    List.zip_nil_left, List.sum_cons, List.sum_nil, colSums, List.foldl, List.zipWith]
  norm_num [Real.sqrt_pos]
  have h2 : Real.sqrt 2 ≠ 0 := ne_of_gt (Real.sqrt_pos.mpr (by norm_num))
  field_simp
  ring

theorem allclose_refl_square : allclose ([1 / 2, 1 / 2] : List ℝ) [1 / 2, 1 / 2] := by
  intro q hq
  simp only [List.zip_cons_cons, List.zip_nil_right, List.mem_cons, List.not_mem_nil,
    or_false] at hq
  rcases hq with rfl | rfl <;>
    · rw [show |(1 / 2 : ℝ) - 1 / 2| = 0 by norm_num]
      positivity

/-- C8: on a symmetric point set — the vertices of the unit square —
Weiszfeld's algorithm (initialized at the column-wise mean, stopping as soon
as the estimate stops moving) returns the centroid exactly: the first step
reproduces the mean, `allclose` fires, and the loop breaks on iteration one
of the at-most-10. -/
theorem C8_geomedian_square :
    compute_ideal_geomedian [[0, 0], [0, 1], [1, 0], [1, 1]] =
      npMean [[0, 0], [0, 1], [1, 0], [1, 1]] ∧
    compute_ideal_geomedian [[0, 0], [0, 1], [1, 0], [1, 1]] = [1 / 2, 1 / 2] := by
  have hmain : compute_ideal_geomedian [[0, 0], [0, 1], [1, 0], [1, 1]] =
      ([1 / 2, 1 / 2] : List ℝ) := by
    unfold compute_ideal_geomedian
    rw [npMean_square]
    show wLoop _ (9 + 1) _ = _
    rw [wLoop]
    simp only [wstep_square, allclose_refl_square, if_true]
  exact ⟨hmain.trans npMean_square.symm, hmain⟩

/-! ## C5: the ranking pass normalization and distance formulas -/

theorem normCoord_eq_spec (v : Option ℚ) (mn mx : ℚ) :
    normCoord v mn mx = specNormVal v mn mx := by
  unfold normCoord specNormVal
  by_cases h : mx - mn > 0
  · rw [if_pos h, if_pos (by linarith : mx > mn)]
    cases v with
    | none => rfl
    | some q => rfl
  · rw [if_neg h, if_neg (by intro hc; exact h (by linarith) : ¬ mx > mn)]

theorem normIdeal_eq_spec (i mn mx : ℚ) :
    normIdeal i mn mx = (if mx > mn then (i - mn) / (mx - mn) else 0) := by
  unfold normIdeal
  by_cases h : mx - mn > 0
  · rw [if_pos h, if_pos (by linarith : mx > mn)]
  · rw [if_neg h, if_neg (by intro hc; exact h (by linarith) : ¬ mx > mn)]

theorem zip_map_eq_zipWith_sq (p : List PVal) (w : List ℚ) :
    (p.zip w).map (fun pi => (pi.1.subQ pi.2).sq) =
      (List.zipWith PVal.subQ p w).map PVal.sq := by
  induction p generalizing w with
  | nil => simp
  | cons a as ih =>
      cases w with
      | nil => simp
      | cons b bs => simp [ih]

/-- C5: per objective, the ranking pass normalizes a present value to
`(value − min)/(max − min)` when `max > min` and to `0.0` otherwise, treats
a missing value as `+inf` (so it stays `+inf` after normalization and the
entry ranks maximally far), normalizes the ideal point with the same
formula, and assigns as (squared) distance the (squared) Euclidean norm of
the difference between the normalized entry vector and the normalized ideal
point; `min`/`max`/ideal coordinates are the fold-minima/maxima over the
values collected from the loaded entries (`minList`/`maxList` attain and
bound their lists). -/
theorem C5_normalized_distance (wvals : List (Option ℚ)) (mins maxs ideal : List ℚ) :
    entryPoint wvals mins maxs = specNormVec wvals mins maxs ∧
    idealNormOf ideal mins maxs = specIdealNormVec ideal mins maxs ∧
    entryDistSq (entryPoint wvals mins maxs) (idealNormOf ideal mins maxs) =
      specDistSq (specNormVec wvals mins maxs) (specIdealNormVec ideal mins maxs) ∧
    (∀ nums : List ℚ, nums ≠ [] → minList nums ∈ nums ∧ ∀ v ∈ nums, minList nums ≤ v) ∧
    (∀ nums : List ℚ, nums ≠ [] → maxList nums ∈ nums ∧ ∀ v ∈ nums, v ≤ maxList nums) := by
  have h1 : entryPoint wvals mins maxs = specNormVec wvals mins maxs := by
    unfold entryPoint specNormVec
    congr 1
    funext v mm
    exact normCoord_eq_spec v mm.1 mm.2
  have h2 : idealNormOf ideal mins maxs = specIdealNormVec ideal mins maxs := by
    unfold idealNormOf specIdealNormVec
    congr 1
    funext i mm
    exact normIdeal_eq_spec i mm.1 mm.2
  refine ⟨h1, h2, ?_, ?_, ?_⟩
  · rw [h1, h2]
    unfold entryDistSq specDistSq
    rw [zip_map_eq_zipWith_sq]
  · intro nums hne
    cases nums with
    | nil => exact absurd rfl hne
    | cons x xs =>
        constructor
        · exact foldl_min_mem xs x
        · exact foldl_min_le xs x
  · intro nums hne
    cases nums with
    | nil => exact absurd rfl hne
    | cons x xs =>
        constructor
        · exact foldl_max_mem xs x
        · exact foldl_max_ge xs x

/-- Witness for `C5_normalized_distance` at a concrete entry with one
present and one missing objective value. -/
theorem C5_normalized_distance_witness :
    entryPoint [some 1, none] [0, 0] [2, 0] = specNormVec [some 1, none] [0, 0] [2, 0] ∧
    minList [3, 1, 2] ∈ ([3, 1, 2] : List ℚ) :=
  ⟨(C5_normalized_distance [some 1, none] [0, 0] [2, 0] [0, 0]).1,
   ((C5_normalized_distance [] [] [] []).2.2.2.1 [3, 1, 2] (by simp)).1⟩

/-! ## String/glob helper lemmas -/

theorem strEnds_iff (name suf : String) :
    strEnds name suf = true ↔ suf.data <:+ name.data := List.isSuffixOf_iff_suffix

theorem strEnds_append_self (x y : String) : strEnds (x ++ y) y = true := by
  rw [strEnds_iff, String.data_append]
  exact List.suffix_append x.data y.data

theorem strEnds_refl (x : String) : strEnds x x = true := by
  rw [strEnds_iff]

theorem strEnds_of_long (name suf : String)
    (h : name.data.length < suf.data.length) : strEnds name suf = false := by
  cases hse : strEnds name suf with
  | false => rfl
  | true =>
      exfalso
      have := (strEnds_iff name suf).mp hse
      exact absurd this.length_le (by omega)

/-- A bare-named file `<h>.json` never matches the prefixed pattern
`*_<h>.json`. -/
theorem bare_not_pref (h : String) :
    strEnds (h ++ ".json") ("_" ++ h ++ ".json") = false := by
  apply strEnds_of_long
  rw [String.data_append, String.data_append, String.data_append]
  simp only [List.length_append, List.length_cons, List.length_nil]
  omega

/-- The prefixed pattern implies the any pattern: `_<h>.json` a suffix
forces `<h>.json` a suffix. -/
theorem matchesPref_matchesAny (h name : String)
    (hp : matchesPref h name = true) : matchesAny h name = true := by
  rw [matchesPref, strEnds_iff] at hp
  rw [matchesAny, strEnds_iff]
  have hsub : (h ++ ".json").data <:+ ("_" ++ h ++ ".json").data := by
    rw [String.data_append, String.data_append, String.data_append, List.append_assoc]
    exact List.suffix_append _ _
  exact hsub.trans hp

/-- Two equal-length hashes matching the same file name are equal. -/
theorem matchesAny_inj (h h' name : String)
    (hl : h.data.length = h'.data.length)
    (h1 : matchesAny h name = true) (h2 : matchesAny h' name = true) : h = h' := by
  rw [matchesAny, strEnds_iff, String.data_append] at h1 h2
  obtain ⟨t1, he1⟩ := h1
  obtain ⟨t2, he2⟩ := h2
  have hlen : t1.length = t2.length := by
    have e1 := congrArg List.length he1
    have e2 := congrArg List.length he2
    simp only [List.length_append] at e1 e2
    omega
  have : t1 ++ (h.data ++ ".json".data) = t2 ++ (h'.data ++ ".json".data) :=
    he1.trans he2.symm
  rw [← List.append_assoc, ← List.append_assoc] at this
  have h12 : t1 ++ h.data = t2 ++ h'.data :=
    List.append_inj_left this (by simp [hlen, hl])
  apply String.data_injective
  exact List.append_inj_right h12 (by omega)

/-! ## Concrete store states used by witnesses and counterexamples -/

/-- An entry with no `analyses_combined` / `w_i` keys and no numeric leaves. -/
def entryNoW : Json := Json.obj [("a", Json.str "x")]

/-- The empty store (fresh directory). -/
def store0 : Store := ⟨⟨[], none⟩, [], 6⟩

/-- A store holding one bare-named entry file for a fake 16-hex-char hash. -/
def storeBare : Store :=
  ⟨⟨[("0123456789abcdef.json", entryNoW)], some ["0123456789abcdef"]⟩,
    ["0123456789abcdef"], 6⟩

theorem round_floats_entryNoW : round_floats entryNoW 6 = entryNoW := by
  simp [entryNoW, round_floats, roundFloatsPairs]

/-- Unfolding `add_entry` past a fresh-hash dedup check. -/
theorem add_entry_eval (s : Store) (e : Json)
    (hnm : hash_entry (round_floats e s.sig_digits) ∉ s.hashes) :
    add_entry s e =
      match rename_entries (save_index { s with
          fs := s.fs.writePareto (hash_entry (round_floats e s.sig_digits) ++ ".json")
            (round_floats e s.sig_digits),
          hashes := s.hashes ++ [hash_entry (round_floats e s.sig_digits)] }) with
      | .error _ => (false, save_index { s with
          fs := s.fs.writePareto (hash_entry (round_floats e s.sig_digits) ++ ".json")
            (round_floats e s.sig_digits),
          hashes := s.hashes ++ [hash_entry (round_floats e s.sig_digits)] })
      | .ok s3 => (true, s3) := by
  unfold add_entry add_entry_f
  rw [if_neg hnm]

/-- After `add_entry` on the empty store with `entryNoW`, the store holds the
bare-named file, the hash, and the persisted index; the ranking pass is a
no-op (no `w_i` keys) and the call returns `True`. -/
theorem add_entry_store0 :
    add_entry store0 entryNoW =
      (true, ⟨⟨[(hash_entry entryNoW ++ ".json", entryNoW)], some [hash_entry entryNoW]⟩,
        [hash_entry entryNoW], 6⟩) := by
  have hmem : hash_entry (round_floats entryNoW store0.sig_digits) ∉ store0.hashes := by
    simp [store0]
  rw [add_entry_eval store0 entryNoW hmem]
  rw [show round_floats entryNoW store0.sig_digits = entryNoW from round_floats_entryNoW]
  have hs2 : save_index { store0 with
      fs := store0.fs.writePareto (hash_entry entryNoW ++ ".json") entryNoW,
      hashes := store0.hashes ++ [hash_entry entryNoW] } =
      ⟨⟨[(hash_entry entryNoW ++ ".json", entryNoW)], some [hash_entry entryNoW]⟩,
        [hash_entry entryNoW], 6⟩ := by
    simp [save_index, store0, FS.writePareto, sortStr, List.insertionSort, List.orderedInsert]
  rw [hs2]
  have hload : loadEntryF
      (⟨[(hash_entry entryNoW ++ ".json", entryNoW)], some [hash_entry entryNoW]⟩ : FS)
      (hash_entry entryNoW) = .ok entryNoW := by
    unfold loadEntryF globPref globBare
    rw [show List.filter
        (fun p => strEnds p.1 ("_" ++ hash_entry entryNoW ++ ".json"))
        [(hash_entry entryNoW ++ ".json", entryNoW)] = [] from by
      simp [List.filter, bare_not_pref]]
    simp [List.filter]
  have hren : rename_entries
      (⟨⟨[(hash_entry entryNoW ++ ".json", entryNoW)], some [hash_entry entryNoW]⟩,
        [hash_entry entryNoW], 6⟩ : Store) = .ok
      (⟨⟨[(hash_entry entryNoW ++ ".json", entryNoW)], some [hash_entry entryNoW]⟩,
        [hash_entry entryNoW], 6⟩ : Store) := by
    unfold rename_entries compute_ideal_point
    simp only [mapE, load_entry]
    rw [hload]
    simp [acPairsE, entryNoW, lookupKV, List.find?, wKeysOf]
  rw [hren]

/-! ## C1: dedup is idempotent -/

theorem rename_entries_shape {s s' : Store} (h : rename_entries s = .ok s') :
    s'.hashes = s.hashes ∧ s'.sig_digits = s.sig_digits := by
  unfold rename_entries at h
  simp only [] at h
  repeat' split at h
  all_goals (try cases h)
  all_goals constructor
  all_goals rfl

theorem add_entry_f_mem (f : AddFail) (s : Store) (e : Json)
    (hmem : hash_entry (round_floats e s.sig_digits) ∈ s.hashes) :
    add_entry_f f s e = (false, s) := by
  unfold add_entry_f
  rw [if_pos hmem]

/-- C1: if the hash of the rounded entry is already indexed, `add_entry`
returns `False` and changes nothing (no file write, index and store
untouched); consequently a second identical `add_entry` right after a
successful one returns `False`. -/
theorem C1_dedup_idempotent (s : Store) (e : Json) :
    (hash_entry (round_floats e s.sig_digits) ∈ s.hashes → add_entry s e = (false, s)) ∧
    ((add_entry s e).1 = true → (add_entry (add_entry s e).2 e).1 = false) := by
  constructor
  · intro hmem
    exact add_entry_f_mem .noFail s e hmem
  · intro htrue
    by_cases hmem : hash_entry (round_floats e s.sig_digits) ∈ s.hashes
    · have haux : add_entry s e = (false, s) := add_entry_f_mem .noFail s e hmem
      rw [haux] at htrue
      simp at htrue
    · have heq := add_entry_eval s e hmem
      cases hren : rename_entries (save_index { s with
          fs := s.fs.writePareto (hash_entry (round_floats e s.sig_digits) ++ ".json")
            (round_floats e s.sig_digits),
          hashes := s.hashes ++ [hash_entry (round_floats e s.sig_digits)] }) with
      | error er =>
          rw [heq, hren] at htrue
          simp at htrue
      | ok s3 =>
          rw [heq, hren]
          show (add_entry_f .noFail s3 e).1 = false
          obtain ⟨hh, hsig⟩ := rename_entries_shape hren
          have hmem3 : hash_entry (round_floats e s3.sig_digits) ∈ s3.hashes := by
            have hsig' : s3.sig_digits = s.sig_digits := by
              rw [hsig]
              rfl
            rw [hsig', hh]
            simp [save_index]
          rw [add_entry_f_mem .noFail s3 e hmem3]

/-- Witness for `C1_dedup_idempotent`: a fresh add on the empty store
succeeds; repeating it returns `False` with the store unchanged. -/
theorem C1_dedup_idempotent_witness :
    (add_entry store0 entryNoW).1 = true ∧
    (add_entry (add_entry store0 entryNoW).2 entryNoW).1 = false ∧
    add_entry (add_entry store0 entryNoW).2 entryNoW =
      (false, (add_entry store0 entryNoW).2) := by
  have h1 : (add_entry store0 entryNoW).1 = true := by rw [add_entry_store0]
  refine ⟨h1, (C1_dedup_idempotent store0 entryNoW).2 h1, ?_⟩
  apply (C1_dedup_idempotent (add_entry store0 entryNoW).2 entryNoW).1
  rw [add_entry_store0]
  show hash_entry (round_floats entryNoW 6) ∈ [hash_entry entryNoW]
  rw [round_floats_entryNoW]
  simp

/-! ## C2: failures inside the `try` of `add_entry` -/

theorem writePareto_names (fs : FS) (nm : String) (c : Json) (p : String × Json)
    (hp : p ∈ fs.pareto) : ∃ p' ∈ (fs.writePareto nm c).pareto, p'.1 = p.1 := by
  by_cases he : p.1 = nm
  · refine ⟨(nm, c), ?_, by simp [he]⟩
    simp [FS.writePareto]
  · refine ⟨p, ?_, rfl⟩
    simp only [FS.writePareto, List.mem_append]
    exact Or.inl (List.mem_filter.mpr ⟨hp, by simp [he]⟩)

theorem indexBacked_write_add (s : Store) (e : Json) (hb : indexBacked s) :
    indexBacked { s with
      fs := s.fs.writePareto (hash_entry (round_floats e s.sig_digits) ++ ".json")
        (round_floats e s.sig_digits),
      hashes := s.hashes ++ [hash_entry (round_floats e s.sig_digits)] } := by
  intro h' hm'
  simp only [List.mem_append, List.mem_singleton] at hm'
  rcases hm' with hold | rfl
  · obtain ⟨p, hp, hmp⟩ := hb h' hold
    obtain ⟨p', hp', he⟩ := writePareto_names s.fs _ _ p hp
    exact ⟨p', hp', by rw [matchesAny] at hmp ⊢; rw [he]; exact hmp⟩
  · refine ⟨(hash_entry (round_floats e s.sig_digits) ++ ".json",
      round_floats e s.sig_digits), ?_, ?_⟩
    · simp [FS.writePareto]
    · exact strEnds_refl _

/-- C2 (amended): any injected I/O failure after the dedup check makes
`add_entry` return `False`; a failure at the entry write leaves the store
fully unchanged; and in every case the Index never ends up referencing a
hash without an entry file (the entry file is written before the hash is
added).  The original claim's "the Hash Index is not mutated" fails for
failures after the write — see the counterexample. -/
theorem C2_write_failure (f : AddFail) (s : Store) (e : Json) (hf : f ≠ .noFail) :
    (add_entry_f f s e).1 = false ∧
    (f = .atWrite → (add_entry_f f s e).2 = s) ∧
    (indexBacked s → indexBacked (add_entry_f f s e).2) := by
  by_cases hmem : hash_entry (round_floats e s.sig_digits) ∈ s.hashes
  · rw [add_entry_f_mem f s e hmem]
    exact ⟨rfl, fun _ => rfl, fun hb => hb⟩
  · cases f with
    | noFail => exact absurd rfl hf
    | atWrite =>
        unfold add_entry_f
        rw [if_neg hmem]
        exact ⟨rfl, fun _ => rfl, fun hb => hb⟩
    | atSaveIndex =>
        unfold add_entry_f
        rw [if_neg hmem]
        refine ⟨rfl, fun hc => absurd hc (by decide), ?_⟩
        intro hb
        exact indexBacked_write_add s e hb
    | atRename =>
        unfold add_entry_f
        rw [if_neg hmem]
        refine ⟨rfl, fun hc => absurd hc (by decide), ?_⟩
        intro hb
        exact indexBacked_write_add s e hb

/-- C2 (counterexample to the claim as stated): when `_save_index` fails,
`add_entry` returns `False` yet the Hash Index *has* been mutated (the new
hash stays in the in-memory set). -/
theorem C2_counterexample :
    (add_entry_f .atSaveIndex store0 entryNoW).1 = false ∧
    (add_entry_f .atSaveIndex store0 entryNoW).2.hashes ≠ store0.hashes := by
  have hmem : hash_entry (round_floats entryNoW store0.sig_digits) ∉ store0.hashes := by
    simp [store0]
  constructor
  · unfold add_entry_f
    rw [if_neg hmem]
  · unfold add_entry_f
    rw [if_neg hmem]
    simp [store0]

/-- Witness for `C2_write_failure` at `f = atSaveIndex` on the empty store. -/
theorem C2_write_failure_witness :
    (add_entry_f .atSaveIndex store0 entryNoW).1 = false ∧
    indexBacked (add_entry_f .atSaveIndex store0 entryNoW).2 := by
  have hf : AddFail.atSaveIndex ≠ AddFail.noFail := by decide
  have hba : indexBacked store0 := by
    intro h hm
    simp [store0] at hm
  exact ⟨(C2_write_failure _ store0 entryNoW hf).1,
    (C2_write_failure _ store0 entryNoW hf).2.2 hba⟩

/-! ## C9: the ranking pass on an empty store raises `IndexError` -/

/-- C9 (code bug): on an empty store, `rename_entries_with_distance`
raises `IndexError` — `compute_ideal_point` evaluates `entries[0]` before
its `if not entries` guard — instead of the spec'd logged no-op; whereas
when entries exist but the first entry has no `w_i` keys, it is the spec'd
no-op: no renames, no state change, no error. -/
theorem C9_empty_store_raises :
    rename_entries store0 = .error .indexError ∧
    rename_entries storeBare = .ok storeBare := by
  constructor
  · rfl
  · rfl

/-! ## C10: `remove_entry` on a bare-named entry file -/

/-- C10: `remove_entry(h)` only looks for `*_<h>.json`; when `h`'s file
exists only under the bare name `<h>.json` (as created by `add_entry`
before any ranking pass renames it), it deletes nothing and returns
`False`, yet still removes `h` from the Hash Index and persists the index,
leaving the bare file orphaned on disk. -/
theorem C10_remove_bare_orphan (s : Store) (h : String)
    (hnp : ∀ p ∈ s.fs.pareto, ¬ strEnds p.1 ("_" ++ h ++ ".json") = true)
    (hmem : h ∈ s.hashes) (hnd : s.hashes.Nodup)
    (hbare : (h ++ ".json") ∈ s.fs.pareto.map Prod.fst) :
    (remove_entry s h).1 = false ∧
    (remove_entry s h).2.fs.pareto = s.fs.pareto ∧
    h ∉ (remove_entry s h).2.hashes ∧
    (remove_entry s h).2.fs.indexFile = some (sortStr (s.hashes.erase h)) ∧
    (h ++ ".json") ∈ (remove_entry s h).2.fs.pareto.map Prod.fst := by
  have hglob : globPref s.fs h = [] := List.filter_eq_nil_iff.mpr hnp
  have hfs : s.fs.pareto.filter (fun p => !(strEnds p.1 ("_" ++ h ++ ".json"))) =
      s.fs.pareto :=
    List.filter_eq_self.mpr (fun p hp => by simp [hnp p hp])
  have heval : remove_entry s h =
      (false, save_index { s with
        fs := { s.fs with pareto := s.fs.pareto },
        hashes := s.hashes.erase h }) := by
    unfold remove_entry
    rw [if_pos hmem]
    rw [show globPref s.fs h = [] from hglob, hfs]
    rfl
  rw [heval]
  refine ⟨rfl, rfl, ?_, rfl, hbare⟩
  intro hc
  have : h ∈ s.hashes.erase h := hc
  rw [hnd.mem_erase_iff] at this
  exact this.1 rfl

/-- Witness for `C10_remove_bare_orphan` on the bare-named concrete store. -/
theorem C10_remove_bare_orphan_witness :
    (remove_entry storeBare "0123456789abcdef").1 = false ∧
    (remove_entry storeBare "0123456789abcdef").2.fs.pareto = storeBare.fs.pareto ∧
    "0123456789abcdef" ∉ (remove_entry storeBare "0123456789abcdef").2.hashes ∧
    (remove_entry storeBare "0123456789abcdef").2.fs.indexFile =
      some (sortStr (storeBare.hashes.erase "0123456789abcdef")) ∧
    ("0123456789abcdef" ++ ".json") ∈
      (remove_entry storeBare "0123456789abcdef").2.fs.pareto.map Prod.fst :=
  C10_remove_bare_orphan storeBare "0123456789abcdef"
    (by decide) (by decide) (by decide) (by decide)

/-! ## C3: the index/file consistency invariant -/

theorem matchesAny_len_inj {h h' name : String}
    (hl : h.length = 16) (hl' : h'.length = 16)
    (h1 : matchesAny h name = true) (h2 : matchesAny h' name = true) : h = h' :=
  matchesAny_inj h h' name (by
    show h.data.length = h'.data.length
    have e1 : h.data.length = h.length := rfl
    have e2 : h'.data.length = h'.length := rfl
    rw [e1, e2, hl, hl']) h1 h2

/-- Under the invariant, a length-16 hash outside the index has no file. -/
theorem no_file_of_not_mem {fs : FS} {hs : List String} (hc : consistentF fs hs)
    (hlen : ∀ h' ∈ hs, h'.length = 16) {h : String} (hh : h.length = 16)
    (hnm : h ∉ hs) : ∀ p ∈ fs.pareto, matchesAny h p.1 = false := by
  intro p hp
  by_contra hcon
  have hcon' : matchesAny h p.1 = true := by
    cases hx : matchesAny h p.1
    · exact absurd hx hcon
    · rfl
  obtain ⟨h', hh', hm'⟩ := hc.2 p hp
  have : h = h' := matchesAny_len_inj hh (hlen h' hh') hcon' hm'
  exact hnm (this ▸ hh')

theorem writePareto_fresh (fs : FS) (nm : String) (c : Json)
    (hfresh : ∀ p ∈ fs.pareto, p.1 ≠ nm) :
    (fs.writePareto nm c).pareto = fs.pareto ++ [(nm, c)] := by
  unfold FS.writePareto
  rw [List.filter_eq_self.mpr (fun p hp => by simp [hfresh p hp])]

/-- Adding a fresh entry (bare-named file plus appended hash) preserves the
invariant. -/
theorem consistentF_add {fs : FS} {hs : List String} (hc : consistentF fs hs)
    (hlen : ∀ h' ∈ hs, h'.length = 16) {h : String} (hh : h.length = 16)
    (hnm : h ∉ hs) (c : Json) :
    consistentF (fs.writePareto (h ++ ".json") c) (hs ++ [h]) := by
  have hnofile := no_file_of_not_mem hc hlen hh hnm
  have hfresh : ∀ p ∈ fs.pareto, p.1 ≠ h ++ ".json" := by
    intro p hp hcontra
    have : matchesAny h p.1 = true := by
      rw [hcontra]
      exact strEnds_refl _
    rw [hnofile p hp] at this
    cases this
  rw [consistentF, writePareto_fresh fs _ c hfresh]
  constructor
  · intro h'' hmem''
    rw [List.filter_append]
    rcases List.mem_append.mp hmem'' with hold | hnew
    · have hnewfile : matchesAny h'' (h ++ ".json") = false := by
        cases hx : matchesAny h'' (h ++ ".json")
        · rfl
        · exfalso
          have : h'' = h := matchesAny_len_inj (hlen h'' hold) hh hx (strEnds_refl _)
          exact hnm (this ▸ hold)
      rw [show List.filter (fun p => matchesAny h'' p.1) [(h ++ ".json", c)] = [] from by
        simp [List.filter, hnewfile]]
      rw [List.append_nil]
      exact hc.1 h'' hold
    · have hh'' : h'' = h := by simpa using hnew
      subst hh''
      rw [List.filter_eq_nil_iff.mpr (fun p hp => by simp [hnofile p hp])]
      simp [List.filter, strEnds_refl, matchesAny]
  · intro p hp
    rcases List.mem_append.mp hp with hold | hnew
    · obtain ⟨h', hh', hm'⟩ := hc.2 p hold
      exact ⟨h', List.mem_append.mpr (Or.inl hh'), hm'⟩
    · have : p = (h ++ ".json", c) := by simpa using hnew
      subst this
      exact ⟨h, List.mem_append.mpr (Or.inr (by simp)), strEnds_refl _⟩

theorem matchesAny_prefixed (x h : String) : matchesAny h (x ++ h ++ ".json") = true := by
  rw [matchesAny, strEnds_iff]
  simp only [String.data_append, List.append_assoc]
  exact List.suffix_append _ _

/-- Renaming the unique file of an indexed hash to another name matching
the same hash preserves the invariant. -/
theorem renameP_consistentF (fs : FS) (hs : List String) (h old nw : String) (c : Json)
    (hc : consistentF fs hs)
    (hlen : ∀ h' ∈ hs, h'.length = 16) (hmem : h ∈ hs)
    (holdin : (old, c) ∈ fs.pareto)
    (holdm : matchesAny h old = true)
    (hnwm : matchesAny h nw = true) :
    consistentF (fs.renameP old nw) hs := by
  by_cases heq : old = nw
  · unfold FS.renameP
    rw [if_pos heq]
    exact hc
  · unfold FS.renameP
    rw [if_neg heq]
    have hhlen := hlen h hmem
    have huniq : ∀ p ∈ fs.pareto, matchesAny h p.1 = true → p = (old, c) := by
      intro p hp hm
      have h1 := hc.1 h hmem
      obtain ⟨a, ha⟩ := List.length_eq_one.mp h1
      have hpin : p ∈ fs.pareto.filter (fun q => matchesAny h q.1) :=
        List.mem_filter.mpr ⟨hp, hm⟩
      have hoin : (old, c) ∈ fs.pareto.filter (fun q => matchesAny h q.1) :=
        List.mem_filter.mpr ⟨holdin, holdm⟩
      rw [ha] at hpin hoin
      simp only [List.mem_singleton] at hpin hoin
      rw [hpin, hoin]
    have hnofile_nw : ∀ p ∈ fs.pareto, p.1 ≠ nw := by
      intro p hp hcontra
      have hm : matchesAny h p.1 = true := by rw [hcontra]; exact hnwm
      have hpe := huniq p hp hm
      apply heq
      rw [← hcontra, hpe]
    rw [show fs.pareto.filter (fun p => p.1 ≠ nw) = fs.pareto from
      List.filter_eq_self.mpr (fun p hp => by simp [hnofile_nw p hp])]
    constructor
    · intro h'' hmem''
      rw [← List.countP_eq_length_filter, List.countP_map]
      have hcong : ∀ p ∈ fs.pareto,
          ((fun p : String × Json => matchesAny h'' p.1) ∘
            (fun p : String × Json => if p.1 = old then (nw, p.2) else p)) p =
          (fun p : String × Json => matchesAny h'' p.1) p := by
        intro p hp
        simp only [Function.comp]
        by_cases hpo : p.1 = old
        · rw [if_pos hpo]
          show matchesAny h'' nw = matchesAny h'' p.1
          rw [hpo]
          by_cases hsame : h'' = h
          · rw [hsame, hnwm, holdm]
          · have hnw'' : matchesAny h'' nw = false := by
              cases hx : matchesAny h'' nw
              · rfl
              · exact absurd (matchesAny_len_inj (hlen h'' hmem'') hhlen hx hnwm) hsame
            have hold'' : matchesAny h'' old = false := by
              cases hx : matchesAny h'' old
              · rfl
              · exact absurd (matchesAny_len_inj (hlen h'' hmem'') hhlen hx holdm) hsame
            rw [hnw'', hold'']
        · rw [if_neg hpo]
      rw [List.countP_congr (fun p hp => by rw [hcong p hp]), List.countP_eq_length_filter]
      exact hc.1 h'' hmem''
    · intro p' hp'
      rw [List.mem_map] at hp'
      obtain ⟨p, hp, rfl⟩ := hp'
      by_cases hpo : p.1 = old
      · refine ⟨h, hmem, ?_⟩
        rw [if_pos hpo]
        exact hnwm
      · obtain ⟨h', hh', hm'⟩ := hc.2 p hp
        refine ⟨h', hh', ?_⟩
        rw [if_neg hpo]
        exact hm' 

theorem renameOne_consistentF (ctx : RenCtx) {fs : FS} {hs : List String} (h : String)
    (hc : consistentF fs hs) (hlen : ∀ h' ∈ hs, h'.length = 16) (hmem : h ∈ hs) :
    consistentF (renameOne ctx fs h) hs := by
  rcases hl : loadEntryF fs h with el | e
  · simp only [renameOne, hl]
    exact hc
  · rcases hw : wvalsOfE e ctx.w_keys with er | wv
    · simp only [renameOne, hl, hw]
      exact hc
    · rcases hglob : globAny fs h with _ | ⟨p, rest⟩
      · simp only [renameOne, hl, hw, hglob]
        exact hc
      · simp only [renameOne, hl, hw, hglob]
        have hpin : p ∈ globAny fs h := by rw [hglob]; simp
        have hpmem := List.mem_filter.mp hpin
        have hp1 : (p.1, p.2) ∈ fs.pareto := by
          rw [show ((p.1, p.2) : String × Json) = p from rfl]
          exact hpmem.1
        exact renameP_consistentF fs hs h p.1 _ p.2 hc hlen hmem hp1 hpmem.2
          (matchesAny_prefixed _ h)

theorem foldl_renameOne_consistentF (ctx : RenCtx) (hs : List String)
    (hlen : ∀ h' ∈ hs, h'.length = 16) :
    ∀ (todo : List String), (∀ h ∈ todo, h ∈ hs) →
      ∀ (fs : FS), consistentF fs hs →
        consistentF (todo.foldl (renameOne ctx) fs) hs := by
  intro todo
  induction todo with
  | nil => intro _ fs hc; exact hc
  | cons h rest ih =>
      intro htodo fs hc
      exact ih (fun h' hh' => htodo h' (by simp [hh'])) (renameOne ctx fs h)
        (renameOne_consistentF ctx h hc hlen (htodo h (by simp)))

theorem rename_fold_consistent (ctx : RenCtx) (s : Store) (hsl : List String) (d : ℕ)
    (hhs : s.hashes = hsl) (hc : consistent s)
    (hlen : ∀ h' ∈ s.hashes, h'.length = 16) :
    consistent (⟨(sortStr hsl).foldl (renameOne ctx) s.fs, hsl, d⟩ : Store) := by
  show consistentF _ hsl
  apply foldl_renameOne_consistentF ctx hsl (by rw [← hhs]; exact hlen)
  · intro h hh
    have hperm : (sortStr hsl).Perm hsl := List.perm_insertionSort strLE hsl
    exact hperm.mem_iff.mp hh
  · rw [← hhs]
    exact hc

/-- A completed ranking pass preserves the invariant. -/
theorem rename_entries_consistent {s s' : Store} (hren : rename_entries s = .ok s')
    (hc : consistent s) (hlen : ∀ h' ∈ s.hashes, h'.length = 16) : consistent s' := by
  unfold rename_entries at hren
  simp only [] at hren
  repeat' split at hren
  all_goals (try cases hren)
  all_goals try exact hc
  all_goals exact rename_fold_consistent _ s _ _ rfl hc hlen

theorem remove_entry_state (s : Store) (h : String) :
    (remove_entry s h).2 = if h ∈ s.hashes then
        save_index { s with
          fs := { s.fs with
            pareto := s.fs.pareto.filter (fun p => !(strEnds p.1 ("_" ++ h ++ ".json"))) },
          hashes := s.hashes.erase h }
      else { s with fs := { s.fs with
          pareto := s.fs.pareto.filter (fun p => !(strEnds p.1 ("_" ++ h ++ ".json"))) } } := by
  unfold remove_entry
  by_cases hm : h ∈ s.hashes
  · rw [if_pos hm, if_pos hm]
  · rw [if_neg hm, if_neg hm]

theorem remove_entry_consistent (s : Store) (h : String)
    (hc : consistent s) (hnd : s.hashes.Nodup)
    (hlen : ∀ h' ∈ s.hashes, h'.length = 16) (hh16 : h.length = 16)
    (hpref : ∀ p ∈ s.fs.pareto, matchesAny h p.1 = true → matchesPref h p.1 = true) :
    consistent (remove_entry s h).2 := by
  rw [remove_entry_state]
  by_cases hm : h ∈ s.hashes
  · rw [if_pos hm]
    show consistentF _ (s.hashes.erase h)
    constructor
    · intro h2 hm2
      have hm3 := (hnd.mem_erase_iff.mp hm2)
      have hne : h2 ≠ h := hm3.1
      have hmem2 : h2 ∈ s.hashes := hm3.2
      show ((s.fs.pareto.filter (fun p => !(strEnds p.1 ("_" ++ h ++ ".json")))).filter
        (fun p => matchesAny h2 p.1)).length = 1
      rw [← List.countP_eq_length_filter, List.countP_filter]
      have hcong : ∀ p ∈ s.fs.pareto,
          ((fun p : String × Json => matchesAny h2 p.1 &&
            !(strEnds p.1 ("_" ++ h ++ ".json"))) p = true ↔
          (fun p : String × Json => matchesAny h2 p.1) p = true) := by
        intro p hp
        simp only [Bool.and_eq_true, Bool.not_eq_true']
        constructor
        · exact fun hx => hx.1
        · intro hx
          refine ⟨hx, ?_⟩
          cases hpf : strEnds p.1 ("_" ++ h ++ ".json")
          · rfl
          · exfalso
            have hany : matchesAny h p.1 = true := matchesPref_matchesAny h p.1 hpf
            exact hne (matchesAny_len_inj (hlen h2 hmem2) hh16 hx hany)
      rw [List.countP_congr hcong, List.countP_eq_length_filter]
      exact hc.1 h2 hmem2
    · intro p hp2
      have hp := List.mem_filter.mp hp2
      obtain ⟨h2, hh2, hm2⟩ := hc.2 p hp.1
      have hne : h2 ≠ h := by
        intro hcontra
        have hthis : strEnds p.1 ("_" ++ h ++ ".json") = true :=
          hpref p hp.1 (hcontra ▸ hm2)
        rw [hthis] at hp
        simp at hp
      exact ⟨h2, (List.mem_erase_of_ne hne).mpr hh2, hm2⟩
  · rw [if_neg hm]
    have hnofile := no_file_of_not_mem hc hlen hh16 hm
    have heqp : s.fs.pareto.filter (fun p => !(strEnds p.1 ("_" ++ h ++ ".json"))) =
        s.fs.pareto := by
      apply List.filter_eq_self.mpr
      intro p hp
      simp only [Bool.not_eq_true']
      cases hpf : strEnds p.1 ("_" ++ h ++ ".json")
      · rfl
      · exfalso
        have hany : matchesAny h p.1 = true := matchesPref_matchesAny h p.1 hpf
        rw [hnofile p hp] at hany
        cases hany
    show consistentF _ s.hashes
    rw [heqp]
    exact hc

theorem remove_fold_clear : ∀ (todo : List String) (s : Store),
    s.hashes = todo → todo.Nodup → consistent s →
    (∀ h ∈ todo, h.length = 16) →
    (∀ h ∈ todo, ∀ p ∈ s.fs.pareto, matchesAny h p.1 = true → matchesPref h p.1 = true) →
    (todo.foldl (fun st h => (remove_entry st h).2) s).hashes = [] ∧
    consistent (todo.foldl (fun st h => (remove_entry st h).2) s) := by
  intro todo
  induction todo with
  | nil =>
      intro s hhs _ hc _ _
      exact ⟨hhs, hc⟩
  | cons h rest ih =>
      intro s hhs hnd hc hlen hpref
      simp only [List.foldl]
      have hmem : h ∈ s.hashes := by rw [hhs]; simp
      have hhashes1 : (remove_entry s h).2.hashes = rest := by
        rw [remove_entry_state, if_pos hmem]
        show s.hashes.erase h = rest
        rw [hhs]
        exact List.erase_cons_head h rest
      have hpareto1 : (remove_entry s h).2.fs.pareto =
          s.fs.pareto.filter (fun p => !(strEnds p.1 ("_" ++ h ++ ".json"))) := by
        rw [remove_entry_state, if_pos hmem]
        rfl
      have hc1 : consistent (remove_entry s h).2 :=
        remove_entry_consistent s h hc (by rw [hhs]; exact hnd)
          (fun h2 hh2 => hlen h2 (by rw [← hhs]; exact hh2))
          (hlen h (by simp))
          (hpref h (by simp))
      apply ih (remove_entry s h).2 hhashes1 (by
          have := hnd
          simp only [List.nodup_cons] at this
          exact this.2) hc1
      · intro h2 hh2
        exact hlen h2 (by simp [hh2])
      · intro h2 hh2 p hp hm2
        apply hpref h2 (by simp [hh2]) p ?_ hm2
        rw [hpareto1] at hp
        exact (List.mem_filter.mp hp).1

/-- `clear` under the all-files-prefixed proviso empties both the index and
the directory, preserving (trivially re-establishing) the invariant. -/
theorem clear_consistent (s : Store) (hc : consistent s) (hnd : s.hashes.Nodup)
    (hlen : ∀ h2 ∈ s.hashes, h2.length = 16)
    (hallpref : ∀ h ∈ s.hashes, ∀ p ∈ s.fs.pareto,
      matchesAny h p.1 = true → matchesPref h p.1 = true) :
    consistent (clear s) ∧ (clear s).fs.pareto = [] := by
  obtain ⟨hh0, hcf⟩ := remove_fold_clear s.hashes s rfl hnd hc hlen hallpref
  have hpar : (s.hashes.foldl (fun st h => (remove_entry st h).2) s).fs.pareto = [] := by
    cases hp : (s.hashes.foldl (fun st h => (remove_entry st h).2) s).fs.pareto with
    | nil => rfl
    | cons p ps =>
        exfalso
        obtain ⟨h2, hh2, _⟩ := hcf.2 p (by rw [hp]; simp)
        rw [hh0] at hh2
        simp at hh2
  constructor
  · constructor
    · intro h2 hh2
      exact absurd hh2 (List.not_mem_nil h2)
    · intro p hp
      exfalso
      have : p ∈ (s.hashes.foldl (fun st h => (remove_entry st h).2) s).fs.pareto := hp
      rw [hpar] at this
      simp at this
  · exact hpar

theorem add_entry_f_eval (f : AddFail) (s : Store) (e : Json)
    (hnm : hash_entry (round_floats e s.sig_digits) ∉ s.hashes) :
    add_entry_f f s e =
      (match f with
       | .atWrite => (false, s)
       | .atSaveIndex => (false, { s with
           fs := s.fs.writePareto (hash_entry (round_floats e s.sig_digits) ++ ".json")
             (round_floats e s.sig_digits),
           hashes := s.hashes ++ [hash_entry (round_floats e s.sig_digits)] })
       | .atRename => (false, save_index { s with
           fs := s.fs.writePareto (hash_entry (round_floats e s.sig_digits) ++ ".json")
             (round_floats e s.sig_digits),
           hashes := s.hashes ++ [hash_entry (round_floats e s.sig_digits)] })
       | .noFail =>
           match rename_entries (save_index { s with
               fs := s.fs.writePareto (hash_entry (round_floats e s.sig_digits) ++ ".json")
                 (round_floats e s.sig_digits),
               hashes := s.hashes ++ [hash_entry (round_floats e s.sig_digits)] }) with
           | .error _ => (false, save_index { s with
               fs := s.fs.writePareto (hash_entry (round_floats e s.sig_digits) ++ ".json")
                 (round_floats e s.sig_digits),
               hashes := s.hashes ++ [hash_entry (round_floats e s.sig_digits)] })
           | .ok s3 => (true, s3)) := by
  unfold add_entry_f
  rw [if_neg hnm]
  cases f <;> rfl

/-- `_save_index` only rewrites `index.json`; the invariant is untouched. -/
theorem consistent_save_index {s : Store} (h : consistent s) :
    consistent (save_index s) := h

/-- `add_entry` preserves the invariant at every injected failure point:
a dedup hit or a write failure leaves the store unchanged, and from the
moment the entry file is atomically in place the hash is appended, so
index and directory move together; the rename pass keeps them aligned. -/
theorem add_entry_f_consistent (f : AddFail) (s : Store) (e : Json)
    (hc : consistent s) (hlen : ∀ h2 ∈ s.hashes, h2.length = 16) :
    consistent (add_entry_f f s e).2 := by
  by_cases hm : hash_entry (round_floats e s.sig_digits) ∈ s.hashes
  · rw [add_entry_f_mem f s e hm]
    exact hc
  · rw [add_entry_f_eval f s e hm]
    have hcs1 : consistent ({ s with
        fs := s.fs.writePareto (hash_entry (round_floats e s.sig_digits) ++ ".json")
          (round_floats e s.sig_digits),
        hashes := s.hashes ++ [hash_entry (round_floats e s.sig_digits)] } : Store) :=
      consistentF_add hc hlen (hash_entry_length _) hm _
    have hlen1 : ∀ h2 ∈ s.hashes ++ [hash_entry (round_floats e s.sig_digits)],
        h2.length = 16 := by
      intro h2 hh2
      rcases List.mem_append.mp hh2 with ha | hb
      · exact hlen h2 ha
      · rw [List.mem_singleton.mp hb]
        exact hash_entry_length _
    cases f with
    | noFail =>
        rcases hr : rename_entries (save_index { s with
            fs := s.fs.writePareto (hash_entry (round_floats e s.sig_digits) ++ ".json")
              (round_floats e s.sig_digits),
            hashes := s.hashes ++ [hash_entry (round_floats e s.sig_digits)] })
          with perr | s3
        · simp only [hr]
          exact consistent_save_index hcs1
        · simp only [hr]
          exact rename_entries_consistent hr (consistent_save_index hcs1) hlen1
    | atWrite => exact hc
    | atSaveIndex => exact hcs1
    | atRename => exact consistent_save_index hcs1

/-- C3 (amended): the Index/file consistency invariant — every indexed hash
has exactly one entry file whose name ends with it, and every entry file
belongs to an indexed hash — is preserved by `add_entry` (at every failure
point as well as on success) and by a completed
`rename_entries_with_distance` pass; `remove_entry` and `clear` preserve it
only under the proviso that every file of each removed hash carries a
distance-prefixed name (`*_<hash>.json`), and `clear` then empties the
directory.  (Hashes are 16 characters and the index set is duplicate-free,
as the store construction guarantees.) -/
theorem C3_index_file_consistency (s : Store) (e : Json) (f : AddFail) (h : String)
    (s' : Store)
    (hc : consistent s) (hnd : s.hashes.Nodup)
    (hlen : ∀ h2 ∈ s.hashes, h2.length = 16) :
    consistent (add_entry_f f s e).2 ∧
    (rename_entries s = .ok s' → consistent s') ∧
    (h.length = 16 →
      (∀ p ∈ s.fs.pareto, matchesAny h p.1 = true → matchesPref h p.1 = true) →
      consistent (remove_entry s h).2) ∧
    ((∀ h2 ∈ s.hashes, ∀ p ∈ s.fs.pareto,
        matchesAny h2 p.1 = true → matchesPref h2 p.1 = true) →
      consistent (clear s) ∧ (clear s).fs.pareto = []) := by
  refine ⟨add_entry_f_consistent f s e hc hlen, ?_, ?_, ?_⟩
  · intro hren
    exact rename_entries_consistent hren hc hlen
  · intro hh16 hpref
    exact remove_entry_consistent s h hc hnd hlen hh16 hpref
  · intro hall
    exact clear_consistent s hc hnd hlen hall

/-- Witness for `C3_index_file_consistency` on the empty store. -/
theorem C3_index_file_consistency_witness :
    consistent (add_entry_f .noFail store0 entryNoW).2 ∧
    (rename_entries store0 = .ok store0 → consistent store0) ∧
    ("0123456789abcdef".length = 16 →
      (∀ p ∈ store0.fs.pareto, matchesAny "0123456789abcdef" p.1 = true →
        matchesPref "0123456789abcdef" p.1 = true) →
      consistent (remove_entry store0 "0123456789abcdef").2) ∧
    ((∀ h2 ∈ store0.hashes, ∀ p ∈ store0.fs.pareto,
        matchesAny h2 p.1 = true → matchesPref h2 p.1 = true) →
      consistent (clear store0) ∧ (clear store0).fs.pareto = []) :=
  C3_index_file_consistency store0 entryNoW .noFail "0123456789abcdef" store0
    ⟨fun h2 hh2 => absurd hh2 (List.not_mem_nil h2),
     fun p hp => absurd hp (List.not_mem_nil p)⟩
    List.nodup_nil
    (fun h2 hh2 => absurd hh2 (List.not_mem_nil h2))

/-- C3 (counterexample to the unconditional claim): after a successful
`add_entry` on the empty store the single entry file is still bare-named
(`<hash>.json`).  A completed `remove_entry` for that hash deletes nothing
(it globs only `*_<hash>.json`) yet drops the hash from the Index, so the
file is orphaned and the Index/file consistency invariant breaks. -/
theorem C3_counterexample :
    (add_entry store0 entryNoW).1 = true ∧
    ¬ consistent (remove_entry (add_entry store0 entryNoW).2 (hash_entry entryNoW)).2 := by
  rw [add_entry_store0]
  refine ⟨rfl, ?_⟩
  intro hcon
  have hmem : hash_entry entryNoW ∈
      (⟨⟨[(hash_entry entryNoW ++ ".json", entryNoW)], some [hash_entry entryNoW]⟩,
        [hash_entry entryNoW], 6⟩ : Store).hashes :=
    List.mem_singleton.mpr rfl
  rw [remove_entry_state] at hcon
  rw [if_pos hmem] at hcon
  have hpmem : (hash_entry entryNoW ++ ".json", entryNoW) ∈
      List.filter (fun p => !(strEnds p.1 ("_" ++ hash_entry entryNoW ++ ".json")))
        [(hash_entry entryNoW ++ ".json", entryNoW)] := by
    refine List.mem_filter.mpr ⟨List.mem_singleton.mpr rfl, ?_⟩
    rw [show strEnds (hash_entry entryNoW ++ ".json")
        ("_" ++ hash_entry entryNoW ++ ".json") = false from bare_not_pref _]
    rfl
  obtain ⟨h2, hh2, _⟩ := hcon.2 (hash_entry entryNoW ++ ".json", entryNoW) hpmem
  have hh3 : h2 ∈ ([hash_entry entryNoW].erase (hash_entry entryNoW)) := hh2
  rw [List.erase_cons_head] at hh3
  exact absurd hh3 (List.not_mem_nil h2)

end Pareto
